import Mathlib

/-!
Verification development for the ucd-migrator repository.

The repository is a TypeScript application that ingests CI/CD pipeline
definitions (UrbanCode Deploy JSON exports, Jenkins bundles, GitHub Actions
YAML, generic YAML) and normalizes them into one intermediate representation
(ParsedData).  This file gives a shallow embedding of the parsing core:

  - services/ucdParser.ts      (parseProcess, parseUCD)
  - services/jenkinsParser.ts  (parseJenkins, extractFileName, detectFileType, ...)
  - services/githubActionsParser.ts (detectFileType)
  - services/geminiService.ts  (stringifyParsedDataForPrompt)
  - services/yamlParser.ts     (parseYAML)

Modelling conventions:
  - JavaScript strings are Lean String values; string helpers (includes,
    toLowerCase, startsWith, trim, split) are re-implemented structurally over
    List Char so that the kernel can evaluate them.
  - JavaScript truthiness on optional strings is modelled by jsStrOpt:
    null/undefined and the empty string are falsy.
  - JSON/YAML values (the TypeScript "any") are modelled by JsValue.
  - External library calls (JSON.parse, js-yaml load) are modelled by giving
    the embedded function the parse RESULT of each input document as an
    explicit sum (parse error vs parsed value), since the parsing libraries
    themselves are not part of this repository.
  - Mutation of objects held in a Map is modelled by explicit state passing
    over an association list whose keys are unique by construction.
-/

/-! ### JavaScript-style string primitives -/

/-- True when the second list is a prefix of the first list. -/
def listStartsWith : List Char → List Char → Bool
  | _, [] => true
  | [], _ :: _ => false
  | a :: as, b :: bs => (a = b) && listStartsWith as bs

/-- True when the second list occurs as a contiguous sublist of the first. -/
def listOccurs : List Char → List Char → Bool
  | l, p =>
    if listStartsWith l p then true
    else
      match l with
      | [] => false
      | _ :: t => listOccurs t p

/-- JavaScript String.prototype.includes. -/
def jsIncludes (s pat : String) : Bool := listOccurs s.data pat.data

/-- ASCII lower-casing of one character (what toLowerCase does on our inputs). -/
def jsCharLower (c : Char) : Char :=
  if 'A' ≤ c ∧ c ≤ 'Z' then Char.ofNat (c.toNat + 32) else c

/-- JavaScript String.prototype.toLowerCase (ASCII fragment). -/
def jsToLower (s : String) : String := ⟨s.data.map jsCharLower⟩

/-- JavaScript String.prototype.startsWith. -/
def jsStartsWith (s pat : String) : Bool := listStartsWith s.data pat.data

/-- Whitespace recognised by String.prototype.trim (ASCII fragment). -/
def jsIsSpace (c : Char) : Bool :=
  c = ' ' ∨ c = '\t' ∨ c = '\n' ∨ c = '\r' ∨ c = '\x0b' ∨ c = '\x0c'

/-- JavaScript String.prototype.trim. -/
def jsTrim (s : String) : String :=
  ⟨((s.data.dropWhile jsIsSpace).reverse.dropWhile jsIsSpace).reverse⟩

/-- Splitting at a single separator character, as content.split(sep) does. -/
def listSplitOnChar (sep : Char) : List Char → List (List Char)
  | [] => [[]]
  | c :: rest =>
    let groups := listSplitOnChar sep rest
    if c = sep then [] :: groups
    else
      match groups with
      | [] => [[c]]
      | g :: gs => (c :: g) :: gs

/-- JavaScript content.split(sep) for a one-character separator. -/
def jsSplitChar (s : String) (sep : Char) : List String :=
  (listSplitOnChar sep s.data).map (fun l => ⟨l⟩)

/-- JavaScript array.join(sep) on a list of strings. -/
def jsJoin (sep : String) : List String → String
  | [] => ""
  | [x] => x
  | x :: rest => x ++ sep ++ jsJoin sep rest

/-- JavaScript truthiness of an optional string: null/undefined and "" are falsy;
a truthy value is returned as some. -/
def jsStrOpt : Option String → Option String
  | none => none
  | some s => if s = "" then none else some s

/-- Template interpolation of an optional string: undefined prints as "undefined". -/
def jsShowOpt : Option String → String
  | none => "undefined"
  | some s => s

/-! ### JSON / YAML values (the TypeScript "any") -/

/-- A JSON-like value, the model of the TypeScript "any" that JSON.parse and
yaml.load produce. -/
inductive JsValue where
  | null
  | bool (b : Bool)
  | num (n : Int)
  | str (s : String)
  | arr (xs : List JsValue)
  | obj (fields : List (String × JsValue))

/-- JavaScript truthiness of a JsValue. -/
def jsTruthy : JsValue → Bool
  | .null => false
  | .bool b => b
  | .num n => n ≠ 0
  | .str s => s ≠ ""
  | .arr _ => true
  | .obj _ => true

/-- JavaScript property access v.k: yields the field of an object, undefined
(modelled as null, equally falsy) otherwise. -/
def jsGet (v : JsValue) (k : String) : JsValue :=
  match v with
  | .obj fields =>
    match fields.lookup k with
    | some w => w
    | none => .null
  | _ => .null

/-! ### The normalized data model (types.ts) -/

/-- Edge type tag from types.ts. -/
inductive EdgeType where
  | SUCCESS
  | FAILURE
  | ALWAYS
  | VALUE
deriving DecidableEq

/-- Step type union from types.ts. -/
inductive StepType where
  | plugin
  | runProcess
  | setStatus
  | switch
  | finish
  | graph
deriving DecidableEq

/-- String rendering of a StepType, as template interpolation of the union value. -/
def StepType.render : StepType → String
  | .plugin => "plugin"
  | .runProcess => "runProcess"
  | .setStatus => "setStatus"
  | .switch => "switch"
  | .finish => "finish"
  | .graph => "graph"

/-- ParsedPath from types.ts: provenance of how control reached a step. -/
structure ParsedPath where
  source : String
  type : EdgeType
  value : Option String := none
deriving DecidableEq

/-- One entry of a valuePaths list on a parsed step. -/
structure ValuePath where
  value : String
  destination : String
deriving DecidableEq

/-- ParsedStep from types.ts. -/
structure ParsedStep where
  name : String
  id : String
  type : StepType
  details : String
  properties : List (String × JsValue) := []
  scriptBody : Option String := none
  postProcessingScript : Option String := none
  preconditionScript : Option String := none
  incomingPaths : List ParsedPath := []
  onSuccess : Option String := none
  onFailure : Option String := none
  onAlways : Option String := none
  valuePaths : List ValuePath := []

/-- ParsedProcess from types.ts. -/
structure ParsedProcess where
  name : String
  description : String
  mainFlow : List ParsedStep
  failureFlow : List ParsedStep

/-- ParsedData from types.ts: the root normalized document. -/
structure ParsedData where
  componentName : String
  processes : List ParsedProcess

namespace UCD

/-- Raw UCD edge (types.ts Edge).  Field src models "from" (a Lean keyword)
and dst models "to"; src = none models a start edge with absent "from". -/
structure Edge where
  src : Option String
  dst : String
  type : EdgeType
  value : Option String := none
deriving DecidableEq

/-- Raw UCD step (types.ts Step).  The nested children array is not consulted
by parseProcess and is omitted; postProcessingScriptBody models
postProcessingScript?.body. -/
structure Step where
  name : String
  type : StepType
  properties : Option (List (String × JsValue)) := none
  processName : Option String := none
  pluginName : Option String := none
  commandName : Option String := none
  status : Option String := none
  propertyName : Option String := none
  postProcessingScriptBody : Option String := none
  preconditionScript : Option String := none

/-- Raw UCD root activity (types.ts RootActivity).  children is optional
because parseProcess checks its truthiness. -/
structure RootActivity where
  edges : List Edge
  children : Option (List Step)

/-- Raw UCD process (types.ts UCDProcess).  rootActivity and linkedProcesses
are optional because parseUCD and parseProcess check their truthiness. -/
inductive Proc where
  | mk (name description : String) (rootActivity : Option RootActivity)
       (linkedProcesses : Option (List Proc))

/-- Name of a raw UCD process. -/
def Proc.name : Proc → String
  | .mk n _ _ _ => n

/-- Description of a raw UCD process. -/
def Proc.description : Proc → String
  | .mk _ d _ _ => d

/-- Root activity of a raw UCD process. -/
def Proc.rootActivity : Proc → Option RootActivity
  | .mk _ _ ra _ => ra

/-- Linked processes of a raw UCD process. -/
def Proc.linkedProcesses : Proc → Option (List Proc)
  | .mk _ _ _ lp => lp

/-- getStepDetails from services/ucdParser.ts. -/
def getStepDetails (st : Step) : String :=
  match st.type with
  | .plugin => "Plugin: " ++ jsShowOpt st.pluginName ++ " - " ++ jsShowOpt st.commandName
  | .runProcess => "Runs Process: " ++ jsShowOpt st.processName
  | .setStatus => "Set Status to: " ++ jsShowOpt st.status
  | .switch => "Switch on property: " ++ jsShowOpt st.propertyName
  | .finish => "End of Process"
  | .graph => "Type: " ++ StepType.render .graph

/-- Extraction of step.properties?.scriptBody (a string-valued property). -/
def propScriptBody (props : List (String × JsValue)) : Option String :=
  match props.lookup "scriptBody" with
  | some (.str s) => some s
  | _ => none

/-- First pass of parseProcess: the ParsedStep created for one raw step. -/
def mkParsedStep (st : Step) : ParsedStep :=
  { name := st.name
    id := st.name
    type := st.type
    details := getStepDetails st
    properties := st.properties.getD []
    scriptBody :=
      match st.properties with
      | none => none
      | some props => propScriptBody props
    postProcessingScript := st.postProcessingScriptBody
    preconditionScript := st.preconditionScript
    incomingPaths := []
    valuePaths := [] }

/-- Map.set on the name-keyed step map: replace in place or append.  Keys stay
unique by construction, mirroring the JavaScript Map. -/
def mapSet (m : List ParsedStep) (s : ParsedStep) : List ParsedStep :=
  match m with
  | [] => [s]
  | t :: rest => if t.id = s.id then s :: rest else t :: mapSet rest s

/-- Map.get on the name-keyed step map. -/
def lookupStep (m : List ParsedStep) (i : String) : Option ParsedStep :=
  m.find? (fun s => s.id == i)

/-- In-place mutation of the step stored under a key (keys are unique, so
mapping over all entries equals mutating the single stored object). -/
def updateStep (m : List ParsedStep) (i : String) (f : ParsedStep → ParsedStep) :
    List ParsedStep :=
  m.map (fun s => if s.id = i then f s else s)

/-- First pass of parseProcess: create all ParsedStep objects. -/
def buildStepMap (children : List Step) : List ParsedStep :=
  children.foldl (fun m st => mapSet m (mkParsedStep st)) []

/-- The value recorded for a VALUE edge: edge.value with fallback "default". -/
def jsOrDefault : Option String → String
  | none => "default"
  | some s => if s = "" then "default" else s

/-- Second pass of parseProcess: the effect of one edge on the step map. -/
def applyEdge (m : List ParsedStep) (e : Edge) : List ParsedStep :=
  match lookupStep m e.dst with
  | none => m
  | some tS =>
    match jsStrOpt e.src with
    | none =>
      updateStep m e.dst fun s =>
        { s with incomingPaths := s.incomingPaths ++ [⟨"Start", e.type, e.value⟩] }
    | some f =>
      match lookupStep m f with
      | none => m
      | some fS =>
        let m1 := updateStep m e.dst fun s =>
          { s with incomingPaths := s.incomingPaths ++ [⟨fS.name, e.type, e.value⟩] }
        updateStep m1 f fun s =>
          match e.type with
          | .SUCCESS => { s with onSuccess := some tS.name }
          | .FAILURE => { s with onFailure := some tS.name }
          | .ALWAYS => { s with onAlways := some tS.name }
          | .VALUE => { s with valuePaths := s.valuePaths ++ [⟨jsOrDefault e.value, tS.name⟩] }

/-- Second pass of parseProcess over all edges. -/
def applyEdges (m : List ParsedStep) (edges : List Edge) : List ParsedStep :=
  edges.foldl applyEdge m

/-- Successor ids followed by the traversal: onSuccess, onAlways, then all
valuePaths destinations.  onFailure is never followed. -/
def stepSuccessors (s : ParsedStep) : List String :=
  s.onSuccess.toList ++ s.onAlways.toList ++ s.valuePaths.map (·.destination)

/-- The recursive traverse function of parseProcess, linearized as an explicit
depth-first worklist: successors are prepended to the pending list, which
preserves the visitation order of the nested recursion.  The fuel argument
only bounds the recursion depth; parseProcess supplies enough fuel that the
cutoff is never reached (theorem traverseGo_fuel_irrelevant). -/
def traverseGo (m : List ParsedStep) :
    Nat → List String → List String → List ParsedStep → List String × List ParsedStep
  | _, [], vis, flow => (vis, flow)
  | 0, _ :: _, vis, flow => (vis, flow)
  | fuel + 1, i :: rest, vis, flow =>
    if i = "" ∨ i ∈ vis then traverseGo m fuel rest vis flow
    else
      match lookupStep m i with
      | none => traverseGo m fuel rest vis flow
      | some step =>
        traverseGo m fuel (stepSuccessors step ++ rest) (vis ++ [i]) (flow ++ [step])

/-- Total number of successor references in the step map; used to size the fuel. -/
def succTotal (m : List ParsedStep) : Nat :=
  (m.map (fun s => (stepSuccessors s).length)).sum

/-- Set.add on an insertion-ordered string set. -/
def addUniq (l : List String) (x : String) : List String :=
  if x ∈ l then l else l ++ [x]

/-- Final sweep of parseProcess: the effect of one remaining step on the two
flows.  vis is the visited set after both traversal passes. -/
def sweepStep (vis : List String) (acc : List ParsedStep × List ParsedStep)
    (step : ParsedStep) : List ParsedStep × List ParsedStep :=
  let (mf, ff) := acc
  if step.id ∉ vis ∧ step.type ≠ StepType.finish then
    if step.incomingPaths.any (fun p => p.type = EdgeType.FAILURE) then
      if (ff.find? (fun s => s.id == step.id)).isNone then (mf, ff ++ [step]) else (mf, ff)
    else
      if (mf.find? (fun s => s.id == step.id)).isNone then (mf ++ [step], ff) else (mf, ff)
  else (mf, ff)

/-- The step map after the first pass (create all ParsedStep objects) and the
second pass (populate paths based on edges). -/
def annotatedMap (children : List Step) (edges : List Edge) : List ParsedStep :=
  applyEdges (buildStepMap children) edges

/-- All destinations of onFailure fields, in map order, deduplicated: the
failure-path starters set. -/
def failureStarters (m : List ParsedStep) : List String :=
  m.foldl (fun acc s =>
    match jsStrOpt s.onFailure with
    | some f => addUniq acc f
    | none => acc) []

/-- The start set: steps with an incoming path sourced from Start, or, when
that set is empty, the fallback of steps that are never an edge destination
and are not finish steps. -/
def startNodes (m : List ParsedStep) (edges : List Edge) : List ParsedStep :=
  let startNodes0 := m.filter (fun s =>
    s.incomingPaths.any (fun pa => pa.source == "Start"))
  if startNodes0.isEmpty then
    let allDestinations := edges.filterMap (fun e => jsStrOpt (some e.dst))
    m.filter (fun s => s.id ∉ allDestinations ∧ s.type ≠ StepType.finish)
  else startNodes0

/-- Main-flow traversal: depth-first from the start set over an empty visited
set.  The fuel is sized so that the cutoff is never reached. -/
def mainPass (m : List ParsedStep) (edges : List Edge) : List String × List ParsedStep :=
  traverseGo m ((startNodes m edges).length + succTotal m)
    ((startNodes m edges).map (·.id)) [] []

/-- Failure-flow traversal: depth-first from the failure-path starters, with
the visited set shared with the main pass. -/
def failurePass (m : List ParsedStep) (vis : List String) : List String × List ParsedStep :=
  traverseGo m ((failureStarters m).length + succTotal m) (failureStarters m) vis []

/-- Core of parseProcess: build and annotate the step map, traverse the main
flow, traverse the failure flow with the shared visited set, then sweep the
remaining unvisited non-finish steps into the flows. -/
def reconstructFlows (children : List Step) (edges : List Edge) :
    List ParsedStep × List ParsedStep :=
  (annotatedMap children edges).foldl
    (sweepStep (failurePass (annotatedMap children edges)
      (mainPass (annotatedMap children edges) edges).1).1)
    ((mainPass (annotatedMap children edges) edges).2,
     (failurePass (annotatedMap children edges)
       (mainPass (annotatedMap children edges) edges).1).2)

/-- parseProcess from services/ucdParser.ts. -/
def parseProcess (p : Proc) : ParsedProcess :=
  match p.rootActivity with
  | none => ⟨p.name, p.description, [], []⟩
  | some ra =>
    match ra.children with
    | none => ⟨p.name, p.description, [], []⟩
    | some children =>
      let r := reconstructFlows children ra.edges
      ⟨p.name, p.description, r.1, r.2⟩

end UCD

/-! ### Concrete scenario inputs from the spec -/

/-- A raw plugin step used in the concrete scenarios. -/
def pstep (n : String) : UCD.Step := { name := n, type := .plugin }

/-- A raw finish step used in the concrete scenarios. -/
def fstep (n : String) : UCD.Step := { name := n, type := .finish }

/-- A raw edge used in the concrete scenarios. -/
def edge (s : Option String) (d : String) (t : EdgeType) : UCD.Edge :=
  { src := s, dst := d, type := t }

/-- A one-activity raw process used in the concrete scenarios. -/
def proc1 (edges : List UCD.Edge) (children : List UCD.Step) : UCD.Proc :=
  .mk "P" "d" (some { edges := edges, children := some children }) none

/-- The simple linear graph of spec section 8.7: Start to A, A to B, B to Finish,
all SUCCESS, with Finish of kind finish. -/
def linearFinishProc : UCD.Proc :=
  proc1 [edge none "A" .SUCCESS, edge (some "A") "B" .SUCCESS,
         edge (some "B") "Finish" .SUCCESS]
    [pstep "A", pstep "B", fstep "Finish"]

/-- The failure-branch graph of spec section 8.8: Start to A, A to B on SUCCESS,
A to C on FAILURE. -/
def failureBranchProc : UCD.Proc :=
  proc1 [edge none "A" .SUCCESS, edge (some "A") "B" .SUCCESS,
         edge (some "A") "C" .FAILURE]
    [pstep "A", pstep "B", pstep "C"]

/-- A graph exercising the other followed edge kinds: Start to A, A to B on
ALWAYS, A to C and A to D on VALUE edges. -/
def alwaysValueProc : UCD.Proc :=
  proc1 [edge none "A" .SUCCESS, edge (some "A") "B" .ALWAYS,
         { src := some "A", dst := "C", type := .VALUE, value := some "x" },
         { src := some "A", dst := "D", type := .VALUE, value := some "y" }]
    [pstep "A", pstep "B", pstep "C", pstep "D"]

/-- The two-cycle graph of spec section 8.3: A to B to A, both SUCCESS. -/
def cycleProc : UCD.Proc :=
  proc1 [edge (some "A") "B" .SUCCESS, edge (some "B") "A" .SUCCESS]
    [pstep "A", pstep "B"]

/-! ### Derived measures and counters used by the verification -/

namespace UCD

/-- Successor references still available from unvisited steps; the decreasing
measure of the traversal. -/
def succSum (m : List ParsedStep) (vis : List String) : Nat :=
  ((m.filter (fun s => s.id ∉ vis)).map (fun s => (stepSuccessors s).length)).sum

/-- The id-and-type skeleton of a parsed step; the edge pass only writes
incomingPaths, outgoing fields and valuePaths, so it preserves skeletons. -/
def skel (s : ParsedStep) : String × StepType := (s.id, s.type)

/-- Number of steps in a flow carrying a given id. -/
def idCount (x : String) (l : List ParsedStep) : Nat :=
  l.countP (fun s => s.id == x)

end UCD

/-! ### parseUCD (services/ucdParser.ts): the graph-based batch extractor -/

namespace UCD

/-- Raw UCD component template (types.ts UCDComponentTemplate), as produced by
JSON.parse; the fields are optional because parseUCD checks their truthiness. -/
structure Template where
  name : Option String := none
  processes : Option (List Proc) := none
  genericProcesses : Option (List Proc) := none

/-- One input document of parseUCD together with the outcome of JSON.parse on
it: either the parse throws (malformed) or yields a template value. -/
inductive JsonDoc where
  | malformed (raw : String)
  | parsed (t : Template)

/-- The collection loop of parseUCD.  A malformed document makes JSON.parse
throw, which the enclosing try/catch turns into an overall null; a parseable
document lacking a truthy name or both process lists is skipped with a
warning; otherwise its name is recorded and its processes and generic
processes (each followed by its linked processes) are appended. -/
def collectDocs : List JsonDoc → List String → List Proc →
    Option (List String × List Proc)
  | [], names, procs => some (names, procs)
  | .malformed _ :: _, _, _ => none
  | .parsed d :: rest, names, procs =>
    match jsStrOpt d.name with
    | none => collectDocs rest names procs
    | some nm =>
      if d.processes.isNone ∧ d.genericProcesses.isNone then
        collectDocs rest names procs
      else
        collectDocs rest (names ++ [nm])
          ((d.genericProcesses.getD []).foldl
            (fun acc gp => acc ++ gp :: gp.linkedProcesses.getD [])
            (procs ++ d.processes.getD []))

/-- The dedupe filter of parseUCD: keep a process when it has a root activity
and no earlier process in the list bears the same name (JavaScript findIndex
over the whole list compares names only). -/
def dedupeGo : List String → List Proc → List Proc
  | _, [] => []
  | seen, p :: rest =>
    if p.rootActivity.isSome ∧ p.name ∉ seen then
      p :: dedupeGo (seen ++ [p.name]) rest
    else
      dedupeGo (seen ++ [p.name]) rest

/-- parseUCD from services/ucdParser.ts: collect all documents (a JSON parse
error aborts the whole batch via the try/catch), fail when no component name
was recorded, else deduplicate processes by name and parse each. -/
def parseUCD (docs : List JsonDoc) : Option ParsedData :=
  match collectDocs docs [] [] with
  | none => none
  | some (names, procs) =>
    if names = [] then none
    else
      some { componentName := jsJoin ", " names
             processes := (dedupeGo [] procs).map parseProcess }

/-- A document that parses and passes the shape check of parseUCD. -/
def isValidDoc : JsonDoc → Bool
  | .malformed _ => false
  | .parsed t => (jsStrOpt t.name).isSome && (t.processes.isSome || t.genericProcesses.isSome)

end UCD

/-! ### services/jenkinsParser.ts: the script-based extractor -/

namespace Jenkins

/-- Character class of the regex escape for whitespace (ASCII fragment). -/
def isWs (c : Char) : Bool := jsIsSpace c

/-- The single-quote character. -/
def sq : Char := Char.ofNat 39

/-- Membership in the quote character class used by the stage regex. -/
def isQuote (c : Char) : Bool := c = sq ∨ c = '"'

/-- Lower-case letter, upper-case letter or underscore (first identifier char
of the groovy function regex). -/
def isAlphaUnd (c : Char) : Bool :=
  ('a' ≤ c ∧ c ≤ 'z') ∨ ('A' ≤ c ∧ c ≤ 'Z') ∨ c = '_'

/-- Identifier continuation character of the groovy function regex. -/
def isAlnumUnd (c : Char) : Bool := isAlphaUnd c ∨ ('0' ≤ c ∧ c ≤ '9')

/-- ASCII letter or digit (kept unchanged by the id sanitizer). -/
def isAlnum (c : Char) : Bool :=
  ('a' ≤ c ∧ c ≤ 'z') ∨ ('A' ≤ c ∧ c ≤ 'Z') ∨ ('0' ≤ c ∧ c ≤ '9')

/-- The replace of every non-alphanumeric character by an underscore used for
groovy step ids. -/
def sanitizeJs (s : String) : String :=
  ⟨s.data.map (fun c => if isAlnum c then c else '_')⟩

/-- Drop a literal prefix, or fail. -/
def dropLit : List Char → List Char → Option (List Char)
  | [], l => some l
  | _ :: _, [] => none
  | c :: cs, x :: xs => if x = c then dropLit cs xs else none

/-- Attempt to match the stage regex (stage, optional spaces, open paren,
optional spaces, a quote, a nonempty quote-free capture, a quote, optional
spaces, close paren) at the head of the character list; on success return the
capture and the remainder after the match. -/
def matchStageAt (l : List Char) : Option (String × List Char) :=
  match dropLit "stage".data l with
  | none => none
  | some l1 =>
    match l1.dropWhile isWs with
    | '(' :: l3 =>
      match l3.dropWhile isWs with
      | q :: l5 =>
        if isQuote q then
          match l5.span (fun c => ¬ isQuote c) with
          | (cap, q2 :: l7) =>
            if cap = [] then none
            else if isQuote q2 then
              match (l7.dropWhile isWs) with
              | ')' :: l9 => some (⟨cap⟩, l9)
              | _ => none
            else none
          | (_, []) => none
        else none
      | [] => none
    | _ => none

/-- Global scan of the stage regex: find the leftmost match, record its
capture, continue after the matched text (the lastIndex semantics of a global
regex); the fuel equals the text length, which one-character steps can never
exhaust early. -/
def scanStages : Nat → List Char → List String
  | 0, _ => []
  | _ + 1, [] => []
  | fuel + 1, c :: rest =>
    match matchStageAt (c :: rest) with
    | some (name, remainder) => name :: scanStages fuel remainder
    | none => scanStages fuel rest

/-- extractStages from services/jenkinsParser.ts. -/
def extractStages (content : String) : List String :=
  scanStages content.data.length content.data

/-- Attempt to match the Ant target regex (a target open tag, at least one
space, a quoted nonempty name attribute) at the head of the list. -/
def matchTargetAt (l : List Char) : Option (String × List Char) :=
  match dropLit "<target".data l with
  | none => none
  | some l1 =>
    match l1 with
    | c :: l2 =>
      if isWs c then
        match dropLit "name=\"".data (l2.dropWhile isWs) with
        | none => none
        | some l3 =>
          match l3.span (fun c => ¬ c = '"') with
          | (cap, '"' :: l5) => if cap = [] then none else some (⟨cap⟩, l5)
          | (_, _) => none
      else none
    | [] => none

/-- Global scan of the Ant target regex. -/
def scanTargets : Nat → List Char → List String
  | 0, _ => []
  | _ + 1, [] => []
  | fuel + 1, c :: rest =>
    match matchTargetAt (c :: rest) with
    | some (name, remainder) => name :: scanTargets fuel remainder
    | none => scanTargets fuel rest

/-- extractAntTargets from services/jenkinsParser.ts. -/
def extractAntTargets (content : String) : List String :=
  scanTargets content.data.length content.data

/-- Attempt to match the groovy function regex (the def keyword, at least one
space, an identifier, optional spaces, an open paren) at the head of the
list. -/
def matchFunctionAt (l : List Char) : Option (String × List Char) :=
  match dropLit "def".data l with
  | none => none
  | some l1 =>
    match l1 with
    | c :: l2 =>
      if isWs c then
        match l2.dropWhile isWs with
        | h :: l3 =>
          if isAlphaUnd h then
            match l3.span isAlnumUnd with
            | (cap, l4) =>
              match l4.dropWhile isWs with
              | '(' :: l5 => some (⟨h :: cap⟩, l5)
              | _ => none
          else none
        | [] => none
      else none
    | [] => none

/-- Global scan of the groovy function regex. -/
def scanFunctions : Nat → List Char → List String
  | 0, _ => []
  | _ + 1, [] => []
  | fuel + 1, c :: rest =>
    match matchFunctionAt (c :: rest) with
    | some (name, remainder) => name :: scanFunctions fuel remainder
    | none => scanFunctions fuel rest

/-- extractGroovyFunctions from services/jenkinsParser.ts. -/
def extractGroovyFunctions (content : String) : List String :=
  scanFunctions content.data.length content.data

/-- True when pat is a suffix of s (String.prototype.endsWith). -/
def jsEndsWith (s pat : String) : Bool :=
  listStartsWith s.data.reverse pat.data.reverse

/-- extractFileName from services/jenkinsParser.ts. -/
def extractFileName (content : String) (index : Nat) : String :=
  let firstLines := jsJoin "\n" ((jsSplitChar content '\n').take 5)
  if jsIncludes (jsToLower firstLines) "jenkinsfile" then "Jenkinsfile"
  else if jsIncludes firstLines "config.xml" || jsIncludes content "<project>" then
    "config.xml"
  else if jsIncludes firstLines "build.xml" || jsIncludes content "<project name=" then
    "build.xml"
  else if jsIncludes content "def " || jsIncludes content "import " ||
      jsIncludes content "class " then
    "SharedLibrary_" ++ toString (index + 1) ++ ".groovy"
  else
    "file_" ++ toString (index + 1)

/-- detectFileType from services/jenkinsParser.ts. -/
def detectFileType (fileName content : String) : String :=
  let lower := jsToLower fileName
  if lower = "jenkinsfile" || jsIncludes lower "jenkinsfile" then "jenkinsfile"
  else if lower = "config.xml" then "config.xml"
  else if lower = "build.xml" then "build.xml"
  else if jsEndsWith lower ".groovy" || jsIncludes content "def " ||
      jsIncludes content "@NonCPS" then "groovy"
  else if jsStartsWith (jsTrim content) "<?xml" || jsIncludes content "<project>" then "xml"
  else "unknown"

/-- The detected type of the file at a given position of the batch. -/
def fileTypeAt (i : Nat) (c : String) : String := detectFileType (extractFileName c i) c

/-- One categorized file of the bundle (fileName, content, type). -/
structure JFile where
  fileName : String
  content : String
  type : String

/-- JenkinsBundle from types.ts, with groovyScripts as an insertion-ordered
object keyed by file name. -/
structure JenkinsBundle where
  jenkinsfile : Option String := none
  configXml : Option String := none
  buildXml : Option String := none
  groovyScripts : List (String × String) := []
  allFiles : List JFile := []

/-- JavaScript object assignment obj[k] = v: replace in place or append. -/
def assocSet (m : List (String × String)) (k v : String) : List (String × String) :=
  match m with
  | [] => [(k, v)]
  | (k0, v0) :: rest => if k0 = k then (k, v) :: rest else (k0, v0) :: assocSet rest k v

/-- Categorization of one file into the bundle (the forEach body of
parseJenkins). -/
def addFile (b : JenkinsBundle) (idx : Nat) (content : String) : JenkinsBundle :=
  let fileName := extractFileName content idx
  let ftype := detectFileType fileName content
  let b1 := { b with allFiles := b.allFiles ++ [⟨fileName, content, ftype⟩] }
  if ftype = "jenkinsfile" then { b1 with jenkinsfile := some content }
  else if ftype = "config.xml" then { b1 with configXml := some content }
  else if ftype = "build.xml" then { b1 with buildXml := some content }
  else if ftype = "groovy" then
    { b1 with groovyScripts := assocSet b1.groovyScripts fileName content }
  else b1

/-- The categorization loop of parseJenkins, with its running index. -/
def buildBundleGo : JenkinsBundle → Nat → List String → JenkinsBundle
  | b, _, [] => b
  | b, i, c :: rest => buildBundleGo (addFile b i c) (i + 1) rest

/-- parseJenkinsfile from services/jenkinsParser.ts. -/
def parseJenkinsfile (content : String) : List ParsedStep :=
  let stages := extractStages content
  let hasDeclarativePipeline := jsIncludes content "pipeline \x7b"
  let hasScriptedPipeline := jsIncludes content "node(" || jsIncludes content "node \x7b"
  [{ name := "Jenkinsfile"
     id := "jenkinsfile"
     type := .plugin
     details :=
       if hasDeclarativePipeline then "Declarative Pipeline"
       else if hasScriptedPipeline then "Scripted Pipeline"
       else "Pipeline Definition"
     properties :=
       [("pipelineType", .str (if hasDeclarativePipeline then "Declarative"
           else if hasScriptedPipeline then "Scripted" else "Unknown")),
        ("stagesFound", .num stages.length),
        ("stageNames", .arr (stages.map .str))]
     scriptBody := some content
     incomingPaths := [] }]

/-- parseConfigXml from services/jenkinsParser.ts. -/
def parseConfigXml (content : String) : ParsedStep :=
  { name := "Job Configuration (config.xml)"
    id := "config_xml"
    type := .plugin
    details := "Jenkins Job Configuration XML"
    properties :=
      [("hasBuilders", .bool (jsIncludes content "<builders>")),
       ("hasPublishers", .bool (jsIncludes content "<publishers>")),
       ("hasTriggers", .bool (jsIncludes content "<triggers>")),
       ("hasScm", .bool (jsIncludes content "<scm")),
       ("contentLength", .num content.length)]
    incomingPaths := [] }

/-- parseBuildXml from services/jenkinsParser.ts. -/
def parseBuildXml (content : String) : ParsedStep :=
  let targets := extractAntTargets content
  { name := "Build Configuration (build.xml)"
    id := "build_xml"
    type := .plugin
    details := "Ant Build Configuration"
    properties :=
      [("targetsFound", .num targets.length),
       ("targetNames", .arr (targets.map .str)),
       ("contentLength", .num content.length)]
    incomingPaths := [] }

/-- parseGroovyScript from services/jenkinsParser.ts. -/
def parseGroovyScript (fileName content : String) : ParsedStep :=
  let functions := extractGroovyFunctions content
  let hasSharedLibrary := jsIncludes content "@Library" || jsIncludes content "import "
  { name := "Shared Library: " ++ fileName
    id := "groovy_" ++ sanitizeJs fileName
    type := .plugin
    details := if hasSharedLibrary then "Jenkins Shared Library Script" else "Groovy Script"
    properties :=
      [("fileName", .str fileName),
       ("functionsFound", .num functions.length),
       ("functionNames", .arr (functions.map .str)),
       ("hasSharedLibraryAnnotation", .bool (jsIncludes content "@Library")),
       ("hasNonCPS", .bool (jsIncludes content "@NonCPS")),
       ("contentLength", .num content.length)]
    scriptBody := some content
    incomingPaths := [] }

/-- parseJenkinsBundle from services/jenkinsParser.ts: jenkinsfile steps, one
config.xml step, one build.xml step, one step per groovy script, with a
summary step unshifted to the front. -/
def parseJenkinsBundle (b : JenkinsBundle) : ParsedProcess :=
  let steps :=
    (match b.jenkinsfile with
     | some content => parseJenkinsfile content
     | none => []) ++
    (match b.configXml with
     | some content => [parseConfigXml content]
     | none => []) ++
    (match b.buildXml with
     | some content => [parseBuildXml content]
     | none => []) ++
    b.groovyScripts.map (fun kv => parseGroovyScript kv.1 kv.2)
  let summaryStep : ParsedStep :=
    { name := "Bundle Summary"
      id := "bundle_summary"
      type := .plugin
      details := "Complete Jenkins Bundle Analysis"
      properties :=
        [("totalFiles", .num b.allFiles.length),
         ("hasJenkinsfile", .bool b.jenkinsfile.isSome),
         ("hasConfigXml", .bool b.configXml.isSome),
         ("hasBuildXml", .bool b.buildXml.isSome),
         ("groovyScriptCount", .num b.groovyScripts.length),
         ("fileList", .arr (b.allFiles.map (fun f =>
            .str (f.fileName ++ " (" ++ f.type ++ ")"))))]
      incomingPaths := [] }
  { name := "Jenkins Pipeline Analysis"
    description := "Analysis of Jenkins bundle containing " ++
      toString b.allFiles.length ++ " file(s)"
    mainFlow := summaryStep :: steps
    failureFlow := [] }

/-- parseJenkins from services/jenkinsParser.ts: categorize all files into the
bundle, return null when the bundle holds no jenkinsfile, no config.xml and
no groovy script (buildXml is not consulted by this guard), else one process
for the whole bundle. -/
def parseJenkins (fileContents : List String) : Option ParsedData :=
  let bundle := buildBundleGo {} 0 fileContents
  if bundle.jenkinsfile.isNone ∧ bundle.configXml.isNone ∧ bundle.groovyScripts = [] then
    none
  else
    some { componentName := "Jenkins Pipeline"
           processes := [parseJenkinsBundle bundle] }

end Jenkins

/-! ### services/githubActionsParser.ts: the YAML-workflow file-type detector -/

namespace GHA

/-- One input file content together with the outcome of yaml.load on it:
either the load throws (malformed) or yields a value. -/
inductive YamlContent where
  | malformed (raw : String)
  | parsed (v : JsValue)

/-- The strict comparison runs.using === "composite". -/
def jsUsingComposite : JsValue → Bool
  | .str s => s = "composite"
  | _ => false

/-- detectFileType from services/githubActionsParser.ts.  The fileName
parameter is accepted but never consulted by the body; a yaml.load failure is
caught and tagged unknown; a parsed value with truthy on and jobs fields is a
workflow (reusable-workflow when on.workflow_call is truthy); otherwise
runs.using === "composite" makes it a composite action; anything else falls
through to the workflow tag. -/
def detectFileType (_fileName : String) (c : YamlContent) : String :=
  match c with
  | .malformed _ => "unknown"
  | .parsed v =>
    if jsTruthy v && jsTruthy (jsGet v "on") && jsTruthy (jsGet v "jobs") then
      if jsTruthy (jsGet (jsGet v "on") "workflow_call") then "reusable-workflow"
      else "workflow"
    else if jsTruthy v && jsTruthy (jsGet v "runs") &&
        jsUsingComposite (jsGet (jsGet v "runs") "using") then "composite-action"
    else "workflow"

end GHA

/-! ### services/geminiService.ts: stringifyParsedDataForPrompt -/

/-- Sequential string accumulation of a forEach loop with output +=. -/
def concatMap (f : α → String) : List α → String
  | [] => ""
  | x :: rest => f x ++ concatMap f rest

/-- One optional script block of the per-step rendering: the literal prefix
(label and opening fence), the script text, and the closing fence — emitted
only when the field is truthy. -/
def scriptSegment (pre : String) (o : Option String) : String :=
  match jsStrOpt o with
  | some p => pre ++ p ++ "\n```\n"
  | none => ""

/-- One optional outgoing-edge line of the per-step rendering. -/
def edgeLine (pre : String) (o : Option String) : String :=
  match jsStrOpt o with
  | some s => pre ++ s ++ "\"\n"
  | none => ""

/-- Header lines of the per-step rendering (step name, type, details). -/
def stepHeader (step : ParsedStep) : String :=
  "\n#### Step: \"" ++ step.name ++ "\"\n" ++
  "- Type: " ++ StepType.render step.type ++ "\n" ++
  "- Details: " ++ step.details ++ "\n"

/-- Script blocks of the per-step rendering, in source order. -/
def stepScripts (step : ParsedStep) : String :=
  scriptSegment "- Precondition Script:\n```\n" step.preconditionScript ++
  scriptSegment "- Script Body:\n```\n" step.scriptBody ++
  scriptSegment "- Post-Processing Script:\n```\n" step.postProcessingScript

/-- Outgoing-edge lines of the per-step rendering. -/
def stepOutgoing (step : ParsedStep) : String :=
  edgeLine "- On Success -> \"" step.onSuccess ++
  edgeLine "- On Failure -> \"" step.onFailure ++
  edgeLine "- On Always -> \"" step.onAlways ++
  (if step.valuePaths.length > 0 then
    concatMap (fun p => "- On Value \"" ++ p.value ++ "\" -> \"" ++ p.destination ++ "\"\n")
      step.valuePaths
  else "")

/-- The per-step rendering of stringifyParsedDataForPrompt. -/
def stringifyStep (step : ParsedStep) : String :=
  stepHeader step ++ stepScripts step ++ stepOutgoing step

/-- The per-flow rendering: a flow heading followed by the step renderings,
emitted only for nonempty flows. -/
def stringifyFlow (flowName : String) (flow : List ParsedStep) : String :=
  if flow.length > 0 then
    "### " ++ flowName ++ "\n" ++ concatMap stringifyStep flow
  else ""

/-- The per-process rendering of stringifyParsedDataForPrompt. -/
def stringifyProcess (process : ParsedProcess) : String :=
  "## Process: " ++ process.name ++ "\n" ++
  "Description: " ++ process.description ++ "\n\n" ++
  stringifyFlow "Main Execution Flow" process.mainFlow ++
  stringifyFlow "Failure Handling Flow" process.failureFlow

/-- stringifyParsedDataForPrompt from services/geminiService.ts. -/
def stringifyParsedDataForPrompt (parsedData : ParsedData) : String :=
  "Component Template: " ++ parsedData.componentName ++ "\n\n" ++
  concatMap stringifyProcess parsedData.processes

/-- Substring test on strings, via the character lists. -/
def strOccurs (hay pat : String) : Bool := listOccurs hay.data pat.data

/-! ### services/yamlParser.ts: parseYAML -/

namespace Yaml

/-- Outcome of yaml.load on one content string: a value, or a thrown parse
error with its message. -/
inductive YamlLoad where
  | ok (v : JsValue)
  | err (msg : String)

/-- One input of parseYAML: the raw content together with its yaml.load
outcome. -/
structure YamlFile where
  raw : String
  load : YamlLoad

mutual

/-- JavaScript string coercion of a value (used when a non-string YAML value
flows into a string field). -/
def jsDisplay : JsValue → String
  | .null => "null"
  | .bool b => if b then "true" else "false"
  | .num n => toString n
  | .str s => s
  | .arr xs => jsJoin "," (jsDisplayList xs)
  | .obj _ => "[object Object]"

/-- String coercion of each element of an array value. -/
def jsDisplayList : List JsValue → List String
  | [] => []
  | v :: rest => jsDisplay v :: jsDisplayList rest

end

/-- The pipeline name pick: yamlData?.pipeline?.name, else yamlData?.name,
else the numbered default (JavaScript or-chains over truthiness). -/
def pipelineNameOf (index : Nat) (v : JsValue) : String :=
  if jsTruthy (jsGet (jsGet v "pipeline") "name") then jsDisplay (jsGet (jsGet v "pipeline") "name")
  else if jsTruthy (jsGet v "name") then jsDisplay (jsGet v "name")
  else "YAML Pipeline " ++ toString (index + 1)

/-- The step created for a successfully parsed YAML content. -/
def yamlSuccessStep (index : Nat) (content : String) (v : JsValue) : ParsedStep :=
  { name := "YAML Content"
    id := "yaml-" ++ toString (index + 1)
    type := .plugin
    details := "Uploaded YAML pipeline content\n\n```yaml\n" ++ content ++ "\n```"
    properties := [("rawYaml", .str content), ("parsedData", v)]
    incomingPaths := [] }

/-- The process created for a successfully parsed YAML content. -/
def yamlSuccessProcess (index : Nat) (content : String) (v : JsValue) : ParsedProcess :=
  { name := pipelineNameOf index v
    description := "Uploaded YAML pipeline"
    mainFlow := [yamlSuccessStep index content v]
    failureFlow := [] }

/-- The step created in the catch branch for content that failed to parse:
it carries the raw content and the error message. -/
def yamlErrorStep (index : Nat) (content msg : String) : ParsedStep :=
  { name := "Raw YAML Content (Parse Error)"
    id := "yaml-error-" ++ toString (index + 1)
    type := .plugin
    details := "YAML content (failed to parse)\n\nError: " ++ msg ++
      "\n\n```yaml\n" ++ content ++ "\n```"
    properties := [("rawYaml", .str content), ("parseError", .str msg)]
    incomingPaths := [] }

/-- The process created in the catch branch. -/
def yamlErrorProcess (index : Nat) (content msg : String) : ParsedProcess :=
  { name := "YAML File " ++ toString (index + 1) ++ " (Parse Error)"
    description := "YAML content with parse error"
    mainFlow := [yamlErrorStep index content msg]
    failureFlow := [] }

/-- The process contributed by one input file (try branch or catch branch). -/
def yamlProcessOf (index : Nat) (f : YamlFile) : ParsedProcess :=
  match f.load with
  | .ok v => yamlSuccessProcess index f.raw v
  | .err msg => yamlErrorProcess index f.raw msg

/-- The forEach loop of parseYAML with its running index: every iteration
pushes exactly one process. -/
def parseYAMLGo : Nat → List YamlFile → List ParsedProcess
  | _, [] => []
  | i, f :: rest => yamlProcessOf i f :: parseYAMLGo (i + 1) rest

/-- The component name: the default, overridden when the first file parses
and carries a truthy pipeline.name. -/
def yamlComponentName (contents : List YamlFile) : String :=
  match contents with
  | [] => "YAML Pipeline"
  | f :: _ =>
    match f.load with
    | .ok v =>
      if jsTruthy (jsGet (jsGet v "pipeline") "name") then
        jsDisplay (jsGet (jsGet v "pipeline") "name")
      else "YAML Pipeline"
    | .err _ => "YAML Pipeline"

/-- parseYAML from services/yamlParser.ts: total, one process per input
string, parse failures handled per item in the catch branch. -/
def parseYAML (contents : List YamlFile) : ParsedData :=
  { componentName := yamlComponentName contents
    processes := parseYAMLGo 0 contents }

end Yaml


/-! ### Concrete inputs used by the claim scenarios -/

/-- A minimal valid component-template document used in the C6 scenario. -/
def compDoc : UCD.JsonDoc :=
  UCD.JsonDoc.parsed { name := some "Comp", processes := some [], genericProcesses := none }

/-- The single-file content of the C7 counterexample: an Ant build file that
the detector classifies as build.xml. -/
def buildOnlyContent : String := "<project name=\"app\"><target name=\"build\"/></project>"

/-- A reusable-workflow document used by the C8 witness. -/
def reusableDoc : JsValue :=
  .obj [("on", .obj [("workflow_call", .obj [])]), ("jobs", .obj [("j", .obj [])])]

/-- A step whose scriptBody is set to the empty string (C9 counterexample). -/
def emptyScriptStep : ParsedStep :=
  { name := "S", id := "S", type := .plugin, details := "x", scriptBody := some "",
    incomingPaths := [] }

/-- A ParsedData containing exactly the empty-script step. -/
def emptyScriptData : ParsedData :=
  { componentName := "C",
    processes := [{ name := "P", description := "D", mainFlow := [emptyScriptStep],
                    failureFlow := [] }] }

/-- A step carrying a nonempty script (C9 witness). -/
def echoStep : ParsedStep :=
  { name := "S", id := "S", type := .plugin, details := "x", scriptBody := some "echo hi",
    incomingPaths := [] }

/-- A process carrying the echo step in its main flow. -/
def echoProcess : ParsedProcess :=
  { name := "P", description := "D", mainFlow := [echoStep], failureFlow := [] }

/-- A ParsedData carrying the echo process. -/
def echoData : ParsedData := { componentName := "C", processes := [echoProcess] }

/-- An input whose YAML load throws (C10 witness). -/
def badYamlFile : Yaml.YamlFile := { raw := "a: [", load := .err "unexpected end" }

/-! ### Theorems -/

namespace UCD


/-! ### Basic lemmas about the step map -/

theorem lookupStep_eq_some {m : List ParsedStep} {i : String} {s : ParsedStep}
    (h : lookupStep m i = some s) : s.id = i ∧ s ∈ m := by
  unfold lookupStep at h
  refine ⟨?_, List.mem_of_find?_eq_some h⟩
  have := List.find?_some h
  simpa using this

theorem lookupStep_of_mem_nodup {m : List ParsedStep} {s : ParsedStep}
    (hnd : (m.map (·.id)).Nodup) (hs : s ∈ m) : lookupStep m s.id = some s := by
  induction m with
  | nil => cases hs
  | cons t rest ih =>
    simp only [List.map_cons, List.nodup_cons] at hnd
    rcases List.mem_cons.mp hs with h | h
    · subst h
      simp [lookupStep]
    · have hne : t.id ≠ s.id := by
        intro he
        exact hnd.1 (he ▸ List.mem_map_of_mem (·.id) h)
      have := ih hnd.2 h
      simp only [lookupStep, List.find?_cons] at *
      have : (t.id == s.id) = false := by
        simp [hne]
      simp [this]
      simpa [lookupStep] using ih hnd.2 h

/-! ### Fuel irrelevance of the traversal -/

theorem succSum_mono {vis vis2 : List String} (m : List ParsedStep)
    (h : ∀ x ∈ vis, x ∈ vis2) : succSum m vis2 ≤ succSum m vis := by
  induction m with
  | nil => simp [succSum]
  | cons s rest ih =>
    simp only [succSum, List.filter_cons] at ih ⊢
    by_cases h2 : s.id ∈ vis2
    · by_cases h0 : s.id ∈ vis
      · simpa [h2, h0] using ih
      · simp only [h2, h0]
        simp only [not_true, not_false_iff, decide_True, decide_False, Bool.false_eq_true,
          if_false, if_true, List.map_cons, List.sum_cons]
        omega
    · have h0 : s.id ∉ vis := fun hx => h2 (h _ hx)
      simp only [h2, h0]
      simp only [not_true, not_false_iff, decide_True, decide_False, Bool.false_eq_true,
        if_false, if_true, List.map_cons, List.sum_cons]
      omega

theorem succSum_drop {m : List ParsedStep} {i : String} {step : ParsedStep} {vis : List String}
    (hl : lookupStep m i = some step) (hv : i ∉ vis) :
    (stepSuccessors step).length + succSum m (vis ++ [i]) ≤ succSum m vis := by
  obtain ⟨hid, hmem⟩ := lookupStep_eq_some hl
  subst hid
  clear hl
  induction m with
  | nil => cases hmem
  | cons s rest ih =>
    simp only [succSum, List.filter_cons] at ih ⊢
    have hmono : ((rest.filter (fun s => decide (s.id ∉ vis ++ [step.id]))).map
          (fun s => (stepSuccessors s).length)).sum ≤
        ((rest.filter (fun s => decide (s.id ∉ vis))).map
          (fun s => (stepSuccessors s).length)).sum := by
      have hsub : ∀ x ∈ vis, x ∈ vis ++ [step.id] := by
        intro x hx
        simp [hx]
      have := succSum_mono rest hsub
      simpa [succSum] using this
    rcases List.mem_cons.mp hmem with h | h
    · subst h
      have h1 : step.id ∈ vis ++ [step.id] := by simp
      simp only [h1, hv]
      simp only [not_true, not_false_iff, decide_True, decide_False, Bool.false_eq_true,
        if_false, if_true, List.map_cons, List.sum_cons]
      omega
    · have ihh := ih h
      by_cases hs : s.id ∈ vis
      · have hs2 : s.id ∈ vis ++ [step.id] := by simp [hs]
        simpa [hs, hs2] using ihh
      · by_cases hse : s.id = step.id
        · have hs2 : s.id ∈ vis ++ [step.id] := by simp [hse]
          simp only [hs2, hs]
          simp only [not_true, not_false_iff, decide_True, decide_False, Bool.false_eq_true,
            if_false, if_true, List.map_cons, List.sum_cons]
          omega
        · have hs2 : s.id ∉ vis ++ [step.id] := by simp [hs, hse]
          simp only [hs2, hs]
          simp only [not_true, not_false_iff, decide_True, decide_False, Bool.false_eq_true,
            if_false, if_true, List.map_cons, List.sum_cons]
          omega

theorem traverseGo_nil {m : List ParsedStep} {fuel : Nat} {vis : List String}
    {flow : List ParsedStep} : traverseGo m fuel [] vis flow = (vis, flow) := by
  cases fuel <;> rfl

theorem traverseGo_skip {m : List ParsedStep} {fuel : Nat} {i : String}
    {rest vis : List String} {flow : List ParsedStep} (h : i = "" ∨ i ∈ vis) :
    traverseGo m (fuel + 1) (i :: rest) vis flow = traverseGo m fuel rest vis flow := by
  simp [traverseGo, h]

theorem traverseGo_miss {m : List ParsedStep} {fuel : Nat} {i : String}
    {rest vis : List String} {flow : List ParsedStep} (h1 : ¬(i = "" ∨ i ∈ vis))
    (h2 : lookupStep m i = none) :
    traverseGo m (fuel + 1) (i :: rest) vis flow = traverseGo m fuel rest vis flow := by
  simp [traverseGo, h1, h2]

theorem traverseGo_visit {m : List ParsedStep} {fuel : Nat} {i : String}
    {rest vis : List String} {flow : List ParsedStep} {step : ParsedStep}
    (h1 : ¬(i = "" ∨ i ∈ vis)) (h2 : lookupStep m i = some step) :
    traverseGo m (fuel + 1) (i :: rest) vis flow =
      traverseGo m fuel (stepSuccessors step ++ rest) (vis ++ [i]) (flow ++ [step]) := by
  simp [traverseGo, h1, h2]

theorem traverseGo_fuel_succ (m : List ParsedStep) :
    ∀ (fuel : Nat) (pending vis : List String) (flow : List ParsedStep),
      pending.length + succSum m vis ≤ fuel →
      traverseGo m (fuel + 1) pending vis flow = traverseGo m fuel pending vis flow := by
  intro fuel
  induction fuel with
  | zero =>
    intro pending vis flow h
    cases pending with
    | nil => simp [traverseGo_nil]
    | cons i rest => simp at h
  | succ g ih =>
    intro pending vis flow h
    cases pending with
    | nil => simp [traverseGo_nil]
    | cons i rest =>
      by_cases hi : i = "" ∨ i ∈ vis
      · rw [traverseGo_skip hi, traverseGo_skip hi]
        apply ih
        simp only [List.length_cons] at h
        omega
      · cases hl : lookupStep m i with
        | none =>
          rw [traverseGo_miss hi hl, traverseGo_miss hi hl]
          apply ih
          simp only [List.length_cons] at h
          omega
        | some step =>
          rw [traverseGo_visit hi hl, traverseGo_visit hi hl]
          apply ih
          have hv : i ∉ vis := fun hx => hi (Or.inr hx)
          have := succSum_drop hl hv
          simp only [List.length_cons, List.length_append, List.length_map] at h ⊢
          simp only [stepSuccessors] at this ⊢
          omega

theorem traverseGo_fuel_add (m : List ParsedStep) (fuel : Nat)
    (pending vis : List String) (flow : List ParsedStep)
    (h : pending.length + succSum m vis ≤ fuel) :
    ∀ k, traverseGo m (fuel + k) pending vis flow = traverseGo m fuel pending vis flow := by
  intro k
  induction k with
  | zero => rfl
  | succ j ih =>
    have : fuel + (j + 1) = (fuel + j) + 1 := by omega
    rw [this, traverseGo_fuel_succ m (fuel + j) pending vis flow (by omega), ih]

theorem traverseGo_fuel_irrelevant {m : List ParsedStep} {f1 f2 : Nat}
    {pending vis : List String} {flow : List ParsedStep}
    (h1 : pending.length + succSum m vis ≤ f1)
    (h2 : pending.length + succSum m vis ≤ f2) :
    traverseGo m f1 pending vis flow = traverseGo m f2 pending vis flow := by
  rcases Nat.le_total f1 f2 with hle | hle
  · obtain ⟨k, rfl⟩ := Nat.exists_eq_add_of_le hle
    exact (traverseGo_fuel_add m f1 pending vis flow h1 k).symm
  · obtain ⟨k, rfl⟩ := Nat.exists_eq_add_of_le hle
    exact traverseGo_fuel_add m f2 pending vis flow h2 k

/-! ### The traversal appends fresh steps only -/

theorem traverseGo_delta (m : List ParsedStep) :
    ∀ (fuel : Nat) (pending vis : List String) (flow : List ParsedStep),
      ∃ Δ : List ParsedStep,
        (traverseGo m fuel pending vis flow).1 = vis ++ Δ.map (·.id) ∧
        (traverseGo m fuel pending vis flow).2 = flow ++ Δ ∧
        (∀ s ∈ Δ, lookupStep m s.id = some s) ∧
        (∀ s ∈ Δ, s.id ∉ vis) ∧
        (Δ.map (·.id)).Nodup := by
  intro fuel
  induction fuel with
  | zero =>
    intro pending vis flow
    refine ⟨[], ?_, ?_, ?_, ?_, ?_⟩ <;> cases pending <;> simp [traverseGo_nil, traverseGo]
  | succ g ih =>
    intro pending vis flow
    cases pending with
    | nil => exact ⟨[], by simp [traverseGo_nil], by simp [traverseGo_nil], by simp, by simp, by simp⟩
    | cons i rest =>
      by_cases hi : i = "" ∨ i ∈ vis
      · rw [traverseGo_skip hi]
        exact ih rest vis flow
      · cases hl : lookupStep m i with
        | none =>
          rw [traverseGo_miss hi hl]
          exact ih rest vis flow
        | some step =>
          rw [traverseGo_visit hi hl]
          obtain ⟨Δ, h1, h2, h3, h4, h5⟩ := ih (stepSuccessors step ++ rest) (vis ++ [i]) (flow ++ [step])
          have hid : step.id = i := (lookupStep_eq_some hl).1
          have hiv : i ∉ vis := fun hx => hi (Or.inr hx)
          refine ⟨step :: Δ, ?_, ?_, ?_, ?_, ?_⟩
          · rw [h1]
            simp [hid]
          · rw [h2]
            simp
          · intro s hs
            rcases List.mem_cons.mp hs with h | h
            · subst h
              rw [hid]
              exact hl
            · exact h3 s h
          · intro s hs
            rcases List.mem_cons.mp hs with h | h
            · subst h
              rw [hid]
              exact hiv
            · intro hx
              exact h4 s h (by simp [hx])
          · simp only [List.map_cons, List.nodup_cons]
            constructor
            · intro hx
              obtain ⟨s, hsmem, hsid⟩ := List.mem_map.mp hx
              have := h4 s hsmem
              rw [hsid, hid] at this
              exact this (by simp)
            · exact h5

/-! ### The step map built by the first and second passes -/

theorem mapSet_fresh {m : List ParsedStep} {s : ParsedStep}
    (h : s.id ∉ m.map (·.id)) : mapSet m s = m ++ [s] := by
  induction m with
  | nil => rfl
  | cons t rest ih =>
    simp only [List.map_cons, List.mem_cons] at h
    push_neg at h
    rw [mapSet, if_neg (by exact fun he => h.1 he.symm), ih h.2]
    rfl

theorem buildStepMap_aux (l : List Step) :
    ∀ acc : List ParsedStep,
      (acc.map (·.id) ++ l.map (·.name)).Nodup →
      l.foldl (fun m st => mapSet m (mkParsedStep st)) acc = acc ++ l.map mkParsedStep := by
  induction l with
  | nil => intro acc _; simp
  | cons st rest ih =>
    intro acc hnd
    have hfresh : (mkParsedStep st).id ∉ acc.map (·.id) := by
      intro hx
      have hmem : st.name ∈ acc.map (·.id) := by simpa [mkParsedStep] using hx
      exact (List.nodup_append.mp hnd).2.2 hmem (by simp)
    rw [List.foldl_cons, mapSet_fresh hfresh, ih (acc ++ [mkParsedStep st]) ?_]
    · simp
    · simp only [List.map_append, List.map_cons, List.map_nil, mkParsedStep] at hnd ⊢
      have : acc.map (·.id) ++ [st.name] ++ rest.map (·.name) =
          acc.map (·.id) ++ (st.name :: rest.map (·.name)) := by simp
      rw [this]
      exact hnd

theorem buildStepMap_eq_map {children : List Step}
    (hnd : (children.map (·.name)).Nodup) :
    buildStepMap children = children.map mkParsedStep := by
  have := buildStepMap_aux children [] (by simpa using hnd)
  simpa [buildStepMap] using this

theorem updateStep_skel {m : List ParsedStep} {i : String} {f : ParsedStep → ParsedStep}
    (hf : ∀ s, skel (f s) = skel s) : (updateStep m i f).map skel = m.map skel := by
  unfold updateStep
  rw [List.map_map]
  apply List.map_congr_left
  intro s _
  by_cases h : s.id = i <;> simp [h, hf s]

theorem applyEdge_skel (m : List ParsedStep) (e : Edge) :
    (applyEdge m e).map skel = m.map skel := by
  unfold applyEdge
  split
  · rfl
  · split
    · exact updateStep_skel (fun s => rfl)
    · split
      · rfl
      · rw [updateStep_skel (f := fun s =>
          match e.type with
          | .SUCCESS => { s with onSuccess := some _ }
          | .FAILURE => { s with onFailure := some _ }
          | .ALWAYS => { s with onAlways := some _ }
          | .VALUE => { s with valuePaths := s.valuePaths ++ [⟨jsOrDefault e.value, _⟩] })
          (fun s => by cases e.type <;> rfl)]
        exact updateStep_skel (fun s => rfl)

theorem applyEdges_skel (m : List ParsedStep) (edges : List Edge) :
    (applyEdges m edges).map skel = m.map skel := by
  unfold applyEdges
  induction edges generalizing m with
  | nil => rfl
  | cons e rest ih => rw [List.foldl_cons, ih (applyEdge m e), applyEdge_skel]

/-! ### Counting steps by id through the sweep -/

theorem idCount_append (x : String) (l1 l2 : List ParsedStep) :
    idCount x (l1 ++ l2) = idCount x l1 + idCount x l2 := by
  simp [idCount, List.countP_append]

theorem find?_eq_none_of_idCount_zero {x : String} {l : List ParsedStep}
    (h : idCount x l = 0) : l.find? (fun s => s.id == x) = none := by
  rw [List.find?_eq_none]
  intro s hs
  have := List.countP_eq_zero.mp h s hs
  simpa using this

theorem sweepStep_id_ne {vis : List String} {acc : List ParsedStep × List ParsedStep}
    {step : ParsedStep} {x : String} (h : step.id ≠ x) :
    idCount x (sweepStep vis acc step).1 = idCount x acc.1 ∧
    idCount x (sweepStep vis acc step).2 = idCount x acc.2 := by
  obtain ⟨mf, ff⟩ := acc
  have hb : (step.id == x) = false := by simpa using h
  simp only [sweepStep]
  split_ifs <;> simp [idCount, List.countP_append, List.countP_cons, hb]

theorem sweepStep_visited {vis : List String} {acc : List ParsedStep × List ParsedStep}
    {step : ParsedStep} (h : step.id ∈ vis) : sweepStep vis acc step = acc := by
  obtain ⟨mf, ff⟩ := acc
  simp [sweepStep, h]

theorem sweepStep_target {vis : List String} {mf ff : List ParsedStep}
    {step : ParsedStep} {x : String} (hx : step.id = x) (hnv : step.id ∉ vis)
    (hnf : step.type ≠ StepType.finish) (hmf : idCount x mf = 0) (hff : idCount x ff = 0) :
    idCount x (sweepStep vis (mf, ff) step).1 + idCount x (sweepStep vis (mf, ff) step).2 = 1 := by
  have hb : (step.id == x) = true := by simpa using hx
  have hffn : ff.find? (fun s => s.id == step.id) = none := by
    rw [hx]
    exact find?_eq_none_of_idCount_zero hff
  have hmfn : mf.find? (fun s => s.id == step.id) = none := by
    rw [hx]
    exact find?_eq_none_of_idCount_zero hmf
  simp only [idCount] at hmf hff
  simp only [sweepStep]
  rw [if_pos ⟨hnv, hnf⟩]
  simp only [hffn, hmfn, Option.isNone_none, if_true]
  split_ifs with hfa <;>
    simp [idCount, List.countP_append, List.countP_cons, hb, hmf, hff]

theorem sweep_total_ne (x : String) (vis : List String) :
    ∀ (l : List ParsedStep) (acc : List ParsedStep × List ParsedStep),
      (∀ s ∈ l, s.id ≠ x) →
      idCount x (l.foldl (sweepStep vis) acc).1 + idCount x (l.foldl (sweepStep vis) acc).2 =
        idCount x acc.1 + idCount x acc.2 := by
  intro l
  induction l with
  | nil => intro acc _; rfl
  | cons s rest ih =>
    intro acc h
    rw [List.foldl_cons]
    have hne := @sweepStep_id_ne vis acc s x (h s (by simp))
    rw [ih (sweepStep vis acc s) (fun t ht => h t (by simp [ht])), hne.1, hne.2]

theorem sweep_total_target (x : String) (vis : List String) (hx : x ∉ vis) :
    ∀ (l : List ParsedStep) (mf ff : List ParsedStep),
      idCount x l = 1 →
      (∀ s ∈ l, s.id = x → s.type ≠ StepType.finish) →
      idCount x mf = 0 → idCount x ff = 0 →
      idCount x (l.foldl (sweepStep vis) (mf, ff)).1 +
        idCount x (l.foldl (sweepStep vis) (mf, ff)).2 = 1 := by
  intro l
  induction l with
  | nil => intro mf ff h1; simp [idCount] at h1
  | cons s rest ih =>
    intro mf ff h1 htype hmf hff
    rw [List.foldl_cons]
    by_cases hs : s.id = x
    · have hb : (s.id == x) = true := by simpa using hs
      have hrest : idCount x rest = 0 := by
        have h1c := h1
        simp only [idCount, List.countP_cons, hb, if_true] at h1c
        simp only [idCount]
        omega
      have hall : ∀ t ∈ rest, t.id ≠ x := by
        intro t ht he
        have := List.countP_eq_zero.mp hrest t ht
        simp [he] at this
      rw [sweep_total_ne x vis rest (sweepStep vis (mf, ff) s) hall]
      exact sweepStep_target hs (hs ▸ hx) (htype s (by simp) hs) hmf hff
    · have hne := @sweepStep_id_ne vis (mf, ff) s x hs
      have h1r : idCount x rest = 1 := by
        simp only [idCount, List.countP_cons] at h1 ⊢
        have hb : (s.id == x) = false := by simpa using hs
        simp [hb] at h1
        exact h1
      have := ih (sweepStep vis (mf, ff) s).1 (sweepStep vis (mf, ff) s).2 h1r
        (fun t ht => htype t (by simp [ht])) (by rw [hne.1]; exact hmf) (by rw [hne.2]; exact hff)
      simpa using this

theorem sweep_total_visited (x : String) (vis : List String) (hx : x ∈ vis) :
    ∀ (l : List ParsedStep) (acc : List ParsedStep × List ParsedStep),
      idCount x (l.foldl (sweepStep vis) acc).1 + idCount x (l.foldl (sweepStep vis) acc).2 =
        idCount x acc.1 + idCount x acc.2 := by
  intro l
  induction l with
  | nil => intro acc; rfl
  | cons s rest ih =>
    intro acc
    rw [List.foldl_cons]
    by_cases hs : s.id = x
    · rw [sweepStep_visited (hs ▸ hx), ih]
    · have hne := @sweepStep_id_ne vis acc s x hs
      rw [ih, hne.1, hne.2]

/-! ### The partition invariant -/

theorem countP_eq_one_of_nodup_mem {x : String} {V : List String}
    (hnd : V.Nodup) (hx : x ∈ V) : V.countP (fun i => i == x) = 1 := by
  induction V with
  | nil => cases hx
  | cons a rest ih =>
    simp only [List.nodup_cons] at hnd
    rcases List.mem_cons.mp hx with h | h
    · subst h
      have hz : rest.countP (fun i => i == x) = 0 := by
        apply List.countP_eq_zero.mpr
        intro b hb
        simp only [beq_iff_eq]
        intro he
        exact hnd.1 (he ▸ hb)
      simp [List.countP_cons, hz]
    · have hne : (a == x) = false := by
        simp only [beq_eq_false_iff_ne]
        intro he
        exact hnd.1 (he ▸ h)
      simp [List.countP_cons, hne, ih hnd.2 h]

theorem countP_eq_zero_of_not_mem {x : String} {V : List String}
    (hx : x ∉ V) : V.countP (fun i => i == x) = 0 := by
  apply List.countP_eq_zero.mpr
  intro b hb
  simp only [beq_iff_eq]
  intro he
  exact hx (he ▸ hb)

theorem idCount_eq_countP_ids (x : String) (l : List ParsedStep) :
    idCount x l = (l.map (·.id)).countP (fun i => i == x) := by
  rw [List.countP_map]
  rfl

/-- Every non-finish step of a root activity with unique step names lands in
exactly one of the two reconstructed flows. -/
theorem reconstruct_partition (children : List Step) (edges : List Edge)
    (hnd : (children.map (·.name)).Nodup) (st : Step) (hst : st ∈ children)
    (hnf : st.type ≠ StepType.finish) :
    idCount st.name (reconstructFlows children edges).1 +
      idCount st.name (reconstructFlows children edges).2 = 1 := by
  set x := st.name with hxdef
  set m := annotatedMap children edges with hm
  have hskel : m.map skel = children.map (fun c => (c.name, c.type)) := by
    rw [hm]
    unfold annotatedMap
    rw [applyEdges_skel, buildStepMap_eq_map hnd, List.map_map]
    apply List.map_congr_left
    intro c _
    rfl
  have hids : m.map (·.id) = children.map (·.name) := by
    have h := congrArg (List.map Prod.fst) hskel
    rw [List.map_map, List.map_map] at h
    exact h
  have hndm : (m.map (·.id)).Nodup := by rw [hids]; exact hnd
  have hxmem : x ∈ children.map (·.name) := List.mem_map_of_mem (·.name) hst
  have hx1 : idCount x m = 1 := by
    rw [idCount_eq_countP_ids, hids]
    exact countP_eq_one_of_nodup_mem hnd hxmem
  have hxt : ∀ s ∈ m, s.id = x → s.type ≠ StepType.finish := by
    intro s hs hsx
    have hsk : skel s ∈ children.map (fun c => (c.name, c.type)) := by
      rw [← hskel]
      exact List.mem_map_of_mem skel hs
    obtain ⟨c, hc, hpair⟩ := List.mem_map.mp hsk
    have hcn : c.name = x := by
      have := congrArg Prod.fst hpair
      simpa [skel, hsx] using this
    have hct : c.type = s.type := by
      have := congrArg Prod.snd hpair
      simpa [skel] using this
    have hceq : c = st := by
      have hinj := List.inj_on_of_nodup_map hnd
      exact hinj hc hst (by rw [hcn, hxdef])
    have hts : s.type = st.type := by rw [← hct, hceq]
    rw [hts]
    exact hnf
  obtain ⟨Δ1, e11, e12, hΔ1m, hΔ1v, nd1⟩ := traverseGo_delta m
    ((startNodes m edges).length + succTotal m) ((startNodes m edges).map (·.id)) [] []
  obtain ⟨Δ2, e21, e22, hΔ2m, hΔ2v, nd2⟩ := traverseGo_delta m
    ((failureStarters m).length + succTotal m) (failureStarters m)
    (traverseGo m ((startNodes m edges).length + succTotal m)
      ((startNodes m edges).map (·.id)) [] []).1 []
  have hr1a : (mainPass m edges).1 = [] ++ Δ1.map (·.id) := e11
  have hr1b : (mainPass m edges).2 = [] ++ Δ1 := e12
  have hr2a : (failurePass m (mainPass m edges).1).1 =
      (mainPass m edges).1 ++ Δ2.map (·.id) := e21
  have hr2b : (failurePass m (mainPass m edges).1).2 = [] ++ Δ2 := e22
  have hV : (failurePass m (mainPass m edges).1).1 = Δ1.map (·.id) ++ Δ2.map (·.id) := by
    rw [hr2a, hr1a]
    simp
  have hVnd : ((failurePass m (mainPass m edges).1).1).Nodup := by
    rw [hV]
    rw [List.nodup_append]
    refine ⟨nd1, nd2, ?_⟩
    intro a ha hb
    obtain ⟨s, hs, hsid⟩ := List.mem_map.mp hb
    have := hΔ2v s hs
    rw [e11] at this
    simp only [List.nil_append] at this
    exact this (hsid ▸ ha)
  have hgoal : reconstructFlows children edges =
      m.foldl (sweepStep (failurePass m (mainPass m edges).1).1)
        ((mainPass m edges).2, (failurePass m (mainPass m edges).1).2) := rfl
  rw [hgoal]
  by_cases hxV : x ∈ (failurePass m (mainPass m edges).1).1
  · rw [sweep_total_visited x _ hxV m _]
    rw [hr1b, hr2b]
    simp only [List.nil_append]
    rw [idCount_eq_countP_ids, idCount_eq_countP_ids]
    have hcv : (Δ1.map (·.id) ++ Δ2.map (·.id)).countP (fun i => i == x) = 1 := by
      apply countP_eq_one_of_nodup_mem
      · rw [← hV]; exact hVnd
      · rw [← hV]; exact hxV
    rw [List.countP_append] at hcv
    omega
  · have hz1 : idCount x (mainPass m edges).2 = 0 := by
      rw [hr1b]
      simp only [List.nil_append]
      rw [idCount_eq_countP_ids]
      apply countP_eq_zero_of_not_mem
      intro hmem
      exact hxV (by rw [hV]; exact List.mem_append_left _ hmem)
    have hz2 : idCount x (failurePass m (mainPass m edges).1).2 = 0 := by
      rw [hr2b]
      simp only [List.nil_append]
      rw [idCount_eq_countP_ids]
      apply countP_eq_zero_of_not_mem
      intro hmem
      exact hxV (by rw [hV]; exact List.mem_append_right _ hmem)
    exact sweep_total_target x _ hxV m _ _ hx1 hxt hz1 hz2


/-! ### The empty edge set -/

theorem foldl_failureStarters_aux (l : List ParsedStep) :
    ∀ acc : List String, (∀ s ∈ l, s.onFailure = none) →
      l.foldl (fun acc s =>
        match jsStrOpt s.onFailure with
        | some f => addUniq acc f
        | none => acc) acc = acc := by
  induction l with
  | nil => intro acc _; rfl
  | cons s rest ih =>
    intro acc h
    rw [List.foldl_cons]
    have hs : s.onFailure = none := h s (by simp)
    rw [hs]
    exact ih acc (fun t ht => h t (by simp [ht]))

theorem failureStarters_eq_nil {m : List ParsedStep}
    (h : ∀ s ∈ m, s.onFailure = none) : failureStarters m = [] :=
  foldl_failureStarters_aux m [] h

theorem startNodes_empty_edges {m : List ParsedStep}
    (h : ∀ s ∈ m, s.incomingPaths = []) :
    startNodes m [] = m.filter (fun s => s.type ≠ StepType.finish) := by
  unfold startNodes
  have h0 : m.filter (fun s =>
      s.incomingPaths.any (fun pa => pa.source == "Start")) = [] := by
    rw [List.filter_eq_nil_iff]
    intro s hs
    rw [h s hs]
    simp
  rw [h0]
  simp only [List.isEmpty_nil, if_true]
  apply List.filter_congr
  intro s _
  simp

theorem succTotal_eq_zero {m : List ParsedStep}
    (h : ∀ s ∈ m, stepSuccessors s = []) : succTotal m = 0 := by
  unfold succTotal
  apply List.sum_eq_zero
  intro n hn
  obtain ⟨s, hs, hsn⟩ := List.mem_map.mp hn
  rw [h s hs] at hsn
  simpa using hsn.symm

theorem traverseGo_flat {m : List ParsedStep} (hmn : (m.map (·.id)).Nodup) :
    ∀ (l : List ParsedStep) (vis : List String) (flow : List ParsedStep) (fuel : Nat),
      (∀ s ∈ l, s ∈ m ∧ stepSuccessors s = [] ∧ s.id ∉ vis ∧ s.id ≠ "") →
      ((l.map (·.id)).Nodup) → l.length ≤ fuel →
      traverseGo m fuel (l.map (·.id)) vis flow = (vis ++ l.map (·.id), flow ++ l) := by
  intro l
  induction l with
  | nil =>
    intro vis flow fuel _ _ _
    simp [traverseGo_nil]
  | cons s rest ih =>
    intro vis flow fuel hprop hnd hlen
    obtain ⟨hm, hsucc, hvis, hne⟩ := hprop s (by simp)
    cases fuel with
    | zero => simp at hlen
    | succ g =>
      have hcond : ¬(s.id = "" ∨ s.id ∈ vis) := by
        rintro (hx | hx)
        · exact hne hx
        · exact hvis hx
      rw [List.map_cons, traverseGo_visit hcond (lookupStep_of_mem_nodup hmn hm), hsucc]
      simp only [List.nil_append]
      simp only [List.map_cons, List.nodup_cons] at hnd
      have hstep := ih (vis ++ [s.id]) (flow ++ [s]) g ?_ hnd.2 (by simpa using hlen)
      · rw [hstep]
        simp
      · intro t ht
        obtain ⟨a, b, c, d⟩ := hprop t (by simp [ht])
        refine ⟨a, b, ?_, d⟩
        intro hx
        rcases List.mem_append.mp hx with hx | hx
        · exact c hx
        · simp only [List.mem_singleton] at hx
          exact hnd.1 (hx ▸ List.mem_map_of_mem (·.id) ht)

theorem sweepStep_skip {vis : List String} {acc : List ParsedStep × List ParsedStep}
    {step : ParsedStep} (h : ¬(step.id ∉ vis ∧ step.type ≠ StepType.finish)) :
    sweepStep vis acc step = acc := by
  obtain ⟨mf, ff⟩ := acc
  simp only [sweepStep]
  rw [if_neg h]

theorem sweep_noop {vis : List String} :
    ∀ (l : List ParsedStep) (acc : List ParsedStep × List ParsedStep),
      (∀ s ∈ l, s.type ≠ StepType.finish → s.id ∈ vis) →
      l.foldl (sweepStep vis) acc = acc := by
  intro l
  induction l with
  | nil => intro acc _; rfl
  | cons s rest ih =>
    intro acc h
    rw [List.foldl_cons, sweepStep_skip ?_, ih acc (fun t ht => h t (by simp [ht]))]
    rintro ⟨h1, h2⟩
    exact h1 (h s (by simp) h2)

/-- With a totally empty edge set, reconstruction puts every non-finish step
into the main flow (via the fallback start set) and nothing into the failure
flow, provided step names are unique and nonempty. -/
theorem reconstructFlows_empty_edges {children : List Step}
    (hnd : (children.map (·.name)).Nodup) (hne : "" ∉ children.map (·.name)) :
    reconstructFlows children [] =
      ((buildStepMap children).filter (fun s => s.type ≠ StepType.finish), []) := by
  have hbm : buildStepMap children = children.map mkParsedStep := buildStepMap_eq_map hnd
  have hmem : ∀ s ∈ buildStepMap children, ∃ st ∈ children, mkParsedStep st = s := by
    rw [hbm]
    intro s hs
    exact List.mem_map.mp hs
  have hincoming : ∀ s ∈ buildStepMap children, s.incomingPaths = [] := by
    intro s hs
    obtain ⟨st, _, rfl⟩ := hmem s hs
    rfl
  have hsucc : ∀ s ∈ buildStepMap children, stepSuccessors s = [] := by
    intro s hs
    obtain ⟨st, _, rfl⟩ := hmem s hs
    rfl
  have honf : ∀ s ∈ buildStepMap children, s.onFailure = none := by
    intro s hs
    obtain ⟨st, _, rfl⟩ := hmem s hs
    rfl
  have hids : (buildStepMap children).map (·.id) = children.map (·.name) := by
    rw [hbm, List.map_map]
    rfl
  have hmn : ((buildStepMap children).map (·.id)).Nodup := by
    rw [hids]
    exact hnd
  have hT : succTotal (buildStepMap children) = 0 := succTotal_eq_zero hsucc
  have hstart : startNodes (buildStepMap children) [] =
      (buildStepMap children).filter (fun s => s.type ≠ StepType.finish) :=
    startNodes_empty_edges hincoming
  have hlnd : (((buildStepMap children).filter
      (fun s => s.type ≠ StepType.finish)).map (·.id)).Nodup :=
    ((List.filter_sublist (buildStepMap children)).map (·.id)).nodup hmn
  have hprops : ∀ s ∈ (buildStepMap children).filter (fun s => s.type ≠ StepType.finish),
      s ∈ buildStepMap children ∧ stepSuccessors s = [] ∧
        s.id ∉ ([] : List String) ∧ s.id ≠ "" := by
    intro s hs
    have hsm : s ∈ buildStepMap children := (List.mem_filter.mp hs).1
    refine ⟨hsm, hsucc s hsm, by simp, ?_⟩
    intro hx
    apply hne
    rw [← hids]
    exact hx ▸ List.mem_map_of_mem (·.id) hsm
  have hmain : mainPass (buildStepMap children) [] =
      ([] ++ ((buildStepMap children).filter
          (fun s => s.type ≠ StepType.finish)).map (·.id),
       [] ++ (buildStepMap children).filter (fun s => s.type ≠ StepType.finish)) := by
    unfold mainPass
    rw [hstart, hT]
    exact traverseGo_flat hmn
      ((buildStepMap children).filter (fun s => s.type ≠ StepType.finish)) [] []
      (((buildStepMap children).filter (fun s => s.type ≠ StepType.finish)).length + 0)
      hprops hlnd (by omega)
  have hfs : failureStarters (buildStepMap children) = [] := failureStarters_eq_nil honf
  have hfail : failurePass (buildStepMap children) (mainPass (buildStepMap children) []).1 =
      ((mainPass (buildStepMap children) []).1, []) := by
    unfold failurePass
    rw [hfs]
    exact traverseGo_nil
  have hvisall : ∀ s ∈ buildStepMap children, s.type ≠ StepType.finish →
      s.id ∈ (failurePass (buildStepMap children) (mainPass (buildStepMap children) []).1).1 := by
    intro s hs hnf
    rw [hfail, hmain]
    simp only [List.nil_append]
    refine List.mem_map_of_mem (·.id) (List.mem_filter.mpr ⟨hs, ?_⟩)
    exact decide_eq_true hnf
  have hgoal : reconstructFlows children [] =
      (buildStepMap children).foldl
        (sweepStep (failurePass (buildStepMap children)
          (mainPass (buildStepMap children) []).1).1)
        ((mainPass (buildStepMap children) []).2,
         (failurePass (buildStepMap children)
           (mainPass (buildStepMap children) []).1).2) := rfl
  rw [hgoal, sweep_noop (buildStepMap children) _ hvisall, hfail, hmain]
  simp


theorem sweepStep_mem {vis : List String} {acc : List ParsedStep × List ParsedStep}
    {step s : ParsedStep} :
    (s ∈ (sweepStep vis acc step).1 → s ∈ acc.1 ∨ s.type ≠ StepType.finish) ∧
    (s ∈ (sweepStep vis acc step).2 → s ∈ acc.2 ∨ s.type ≠ StepType.finish) := by
  obtain ⟨mf, ff⟩ := acc
  simp only [sweepStep]
  split_ifs with h1 h2 h3 h4 <;>
    simp only [List.mem_append, List.mem_singleton] <;>
    constructor <;>
    intro hmem <;>
    first
      | exact Or.inl hmem
      | rcases hmem with hmem | hmem
        · exact Or.inl hmem
        · exact Or.inr (hmem ▸ h1.2)

theorem sweep_never_adds_finish {vis : List String} :
    ∀ (l : List ParsedStep) (acc : List ParsedStep × List ParsedStep) (s : ParsedStep),
      (s ∈ (l.foldl (sweepStep vis) acc).1 → s ∈ acc.1 ∨ s.type ≠ StepType.finish) ∧
      (s ∈ (l.foldl (sweepStep vis) acc).2 → s ∈ acc.2 ∨ s.type ≠ StepType.finish) := by
  intro l
  induction l with
  | nil => intro acc s; exact ⟨Or.inl, Or.inl⟩
  | cons t rest ih =>
    intro acc s
    rw [List.foldl_cons]
    constructor
    · intro hmem
      rcases (ih (sweepStep vis acc t) s).1 hmem with h | h
      · rcases (@sweepStep_mem vis acc t s).1 h with h | h
        · exact Or.inl h
        · exact Or.inr h
      · exact Or.inr h
    · intro hmem
      rcases (ih (sweepStep vis acc t) s).2 hmem with h | h
      · rcases (@sweepStep_mem vis acc t s).2 h with h | h
        · exact Or.inl h
        · exact Or.inr h
      · exact Or.inr h

theorem collectDocs_malformed (raw : String) (post : List JsonDoc) :
    ∀ (pre : List JsonDoc) (names : List String) (procs : List Proc),
      collectDocs (pre ++ .malformed raw :: post) names procs = none := by
  intro pre
  induction pre with
  | nil => intro names procs; rfl
  | cons d rest ih =>
    intro names procs
    cases d with
    | malformed r => rfl
    | parsed t =>
      rw [List.cons_append]
      simp only [collectDocs]
      split
      · exact ih names procs
      · split
        · exact ih names procs
        · exact ih _ _

theorem collectDocs_all_parsed :
    ∀ (docs : List JsonDoc), (∀ d ∈ docs, ∃ t, d = JsonDoc.parsed t) →
      ∀ (names : List String) (procs : List Proc),
        ∃ names2 procs2,
          collectDocs docs names procs = some (names ++ names2, procs2) ∧
          (names2 = [] ↔ ∀ d ∈ docs, isValidDoc d = false) := by
  intro docs
  induction docs with
  | nil =>
    intro _ names procs
    exact ⟨[], procs, by simp [collectDocs], by simp⟩
  | cons d rest ih =>
    intro hall names procs
    obtain ⟨t, rfl⟩ := hall d (by simp)
    have hrest : ∀ x ∈ rest, ∃ t, x = JsonDoc.parsed t :=
      fun x hx => hall x (by simp [hx])
    simp only [collectDocs]
    split
    · rename_i hn
      obtain ⟨names2, procs2, h1, h2⟩ := ih hrest names procs
      refine ⟨names2, procs2, h1, ?_⟩
      rw [h2]
      constructor
      · intro h x hx
        rcases List.mem_cons.mp hx with rfl | hx
        · simp [isValidDoc, hn]
        · exact h x hx
      · intro h x hx
        exact h x (by simp [hx])
    · rename_i nm hn
      split
      · rename_i hc
        obtain ⟨names2, procs2, h1, h2⟩ := ih hrest names procs
        refine ⟨names2, procs2, h1, ?_⟩
        rw [h2]
        constructor
        · intro h x hx
          rcases List.mem_cons.mp hx with rfl | hx
          · simp [isValidDoc, Option.isNone_iff_eq_none.mp hc.1,
              Option.isNone_iff_eq_none.mp hc.2]
          · exact h x hx
        · intro h x hx
          exact h x (by simp [hx])
      · rename_i hc
        obtain ⟨names2, procs2, h1, h2⟩ := ih hrest (names ++ [nm]) _
        refine ⟨nm :: names2, procs2, by simpa using h1, ?_⟩
        constructor
        · intro h
          cases h
        · intro h
          have hv := h (JsonDoc.parsed t) (by simp)
          simp only [isValidDoc, hn, Option.isSome_some, Bool.true_and,
            Bool.or_eq_false_iff] at hv
          exact absurd ⟨by simp [Option.isNone_iff_eq_none,
              ← Option.not_isSome_iff_eq_none, hv.1],
            by simp [Option.isNone_iff_eq_none,
              ← Option.not_isSome_iff_eq_none, hv.2]⟩ hc

end UCD

/-! ### Claims C1 to C5: the flow reconstructor -/

section FlowClaims

open UCD

/-- Claim C1, counterexample.  In the linear scenario Start-A-B-Finish the
reconstruction DOES place the finish step into the main flow: the traversal
has no finish-kind check (only the sweep has one), so parseProcess returns
mainFlow = [A, B, Finish], not [A, B] as claimed. -/
theorem C1_finish_excluded_counterexample :
    (parseProcess linearFinishProc).mainFlow.map (·.name) = ["A", "B", "Finish"] ∧
    (parseProcess linearFinishProc).mainFlow.map (·.name) ≠ ["A", "B"] :=
  ⟨by decide, by decide⟩

/-- Claim C1, amended.  Finish-kind steps are never swept into either flow,
but they ARE traversed into when reachable over a SUCCESS edge: any step that
the sweep adds to a flow is non-finish, and in the linear scenario
{Start-A(SUCCESS), A-B(SUCCESS), B-Finish(SUCCESS)} parseProcess returns
mainFlow = [A, B, Finish] and failureFlow = []. -/
theorem C1_finish_traversed_not_swept :
    (∀ (vis : List String) (l : List ParsedStep)
        (acc : List ParsedStep × List ParsedStep) (s : ParsedStep),
        (s ∈ (l.foldl (sweepStep vis) acc).1 → s ∈ acc.1 ∨ s.type ≠ StepType.finish) ∧
        (s ∈ (l.foldl (sweepStep vis) acc).2 → s ∈ acc.2 ∨ s.type ≠ StepType.finish)) ∧
    (parseProcess linearFinishProc).mainFlow.map (·.name) = ["A", "B", "Finish"] ∧
    (parseProcess linearFinishProc).failureFlow = [] :=
  ⟨fun vis l acc s => sweep_never_adds_finish l acc s, by decide, rfl⟩

/-- Claim C1 amended, witness: the sweep over the annotated map of the linear
scenario adds no step to an empty pair of flows when everything is visited. -/
theorem C1_finish_traversed_not_swept_witness :
    mkParsedStep (fstep "Finish") ∈
        ([mkParsedStep (fstep "Finish")].foldl (sweepStep []) ([mkParsedStep (fstep "Finish")], [])).1 →
      mkParsedStep (fstep "Finish") ∈ [mkParsedStep (fstep "Finish")] ∨
        (mkParsedStep (fstep "Finish")).type ≠ StepType.finish :=
  (C1_finish_traversed_not_swept.1 [] [mkParsedStep (fstep "Finish")]
    ([mkParsedStep (fstep "Finish")], []) (mkParsedStep (fstep "Finish"))).1

/-- Claim C2 (confirmed).  For every process handed to the graph-based
extractor whose step names are unique, every non-finish step of the root
activity lands in exactly one of mainFlow and failureFlow: the number of its
occurrences (by id) across both flows is exactly one, for every edge set,
including edge graphs disconnected from all start nodes. -/
theorem C2_flow_completeness (p : Proc) (ra : RootActivity) (children : List Step)
    (hra : p.rootActivity = some ra) (hch : ra.children = some children)
    (hnd : (children.map (·.name)).Nodup) (st : Step) (hst : st ∈ children)
    (hnf : st.type ≠ StepType.finish) :
    idCount st.name (parseProcess p).mainFlow +
      idCount st.name (parseProcess p).failureFlow = 1 := by
  obtain ⟨n, d, ro, lp⟩ := p
  obtain rfl : ro = some ra := hra
  obtain ⟨edges, ch⟩ := ra
  obtain rfl : ch = some children := hch
  have hred : parseProcess (.mk n d (some ⟨edges, some children⟩) lp) =
      ⟨n, d, (reconstructFlows children edges).1, (reconstructFlows children edges).2⟩ := rfl
  rw [hred]
  exact reconstruct_partition children edges hnd st hst hnf

/-- Claim C2, witness: in the failure-branch scenario, step A appears exactly
once across the two flows. -/
theorem C2_flow_completeness_witness :
    idCount "A" (parseProcess failureBranchProc).mainFlow +
      idCount "A" (parseProcess failureBranchProc).failureFlow = 1 :=
  C2_flow_completeness failureBranchProc
    { edges := [edge none "A" .SUCCESS, edge (some "A") "B" .SUCCESS,
                edge (some "A") "C" .FAILURE],
      children := some [pstep "A", pstep "B", pstep "C"] }
    [pstep "A", pstep "B", pstep "C"] rfl rfl (by decide) (pstep "A")
    (List.mem_cons_self _ _) (by decide)

/-- Claim C3 (confirmed).  The traversal result does not depend on the
recursion budget once the budget covers the pending list plus the successor
references of unvisited steps (the visited set, not a depth limit, is what
stops the walk, so reconstruction terminates on every edge set, cyclic ones
included), and in the two-cycle example A-B-A each of A and B appears exactly
once in mainFlow. -/
theorem C3_cycle_safety :
    (∀ (m : List ParsedStep) (f1 f2 : Nat) (pending vis : List String)
        (flow : List ParsedStep),
        pending.length + succSum m vis ≤ f1 → pending.length + succSum m vis ≤ f2 →
        traverseGo m f1 pending vis flow = traverseGo m f2 pending vis flow) ∧
    (parseProcess cycleProc).mainFlow.countP (fun s => s.name == "A") = 1 ∧
    (parseProcess cycleProc).mainFlow.countP (fun s => s.name == "B") = 1 :=
  ⟨fun _ _ _ _ _ _ h1 h2 => traverseGo_fuel_irrelevant h1 h2, by decide, by decide⟩

/-- Claim C3, witness: with budgets 1 and 5, both at least the required bound
for one pending id over the empty map, the traversal results agree. -/
theorem C3_cycle_safety_witness :
    traverseGo [] 1 ["x"] [] [] = traverseGo [] 5 ["x"] [] [] :=
  C3_cycle_safety.1 [] 1 5 ["x"] [] [] (by decide) (by decide)

/-- Claim C4 (confirmed).  In the failure-branch scenario
{Start-A(SUCCESS), A-B(SUCCESS), A-C(FAILURE)}: mainFlow = [A, B],
failureFlow = [C], and step A carries onFailure = "C".  The main-flow
traversal also follows onAlways edges and all valuePaths destinations
(scenario with A-B ALWAYS and two VALUE edges to C and D gives
mainFlow = [A, B, C, D]), while the successor list is invariant under any
change of onFailure — the traversal never follows it. -/
theorem C4_failure_branch_flows :
    (parseProcess failureBranchProc).mainFlow.map (·.name) = ["A", "B"] ∧
    (parseProcess failureBranchProc).failureFlow.map (·.name) = ["C"] ∧
    (parseProcess failureBranchProc).mainFlow.map (·.onFailure) = [some "C", none] ∧
    (parseProcess alwaysValueProc).mainFlow.map (·.name) = ["A", "B", "C", "D"] ∧
    (parseProcess alwaysValueProc).failureFlow = [] ∧
    (∀ (s : ParsedStep) (x : Option String),
      stepSuccessors { s with onFailure := x } = stepSuccessors s) :=
  ⟨by decide, by decide, by decide, by decide, rfl, fun _ _ => rfl⟩

/-- Claim C5, counterexample.  With a totally empty edge set and the step set
{A}, the fallback start set is every non-finish step, so mainFlow = [A],
not [] as the claim states. -/
theorem C5_empty_edges_counterexample :
    (parseProcess (proc1 [] [pstep "A"])).mainFlow.map (·.name) = ["A"] ∧
    (parseProcess (proc1 [] [pstep "A"])).mainFlow.map (·.name) ≠ [] :=
  ⟨by decide, by decide⟩

/-- Claim C5, amended.  The reconstruction is a total function and never
raises; given a totally empty edge set (with the unique, nonempty step names
the data model requires), failureFlow = [] and mainFlow consists of exactly
the non-finish steps, in children order — so mainFlow is empty only when
every step is finish-kind. -/
theorem C5_empty_edges_amended (n d : String) (children : List Step)
    (hnd : (children.map (·.name)).Nodup) (hne : "" ∉ children.map (·.name)) :
    parseProcess (.mk n d (some ⟨[], some children⟩) none) =
      ⟨n, d, (buildStepMap children).filter (fun s => s.type ≠ StepType.finish), []⟩ := by
  have hred : parseProcess (.mk n d (some ⟨[], some children⟩) none) =
      ⟨n, d, (reconstructFlows children []).1, (reconstructFlows children []).2⟩ := rfl
  rw [hred, reconstructFlows_empty_edges hnd hne]

/-- Claim C5 amended, witness: a plugin step and a finish step with no edges
produce mainFlow = [A] and failureFlow = []. -/
theorem C5_empty_edges_amended_witness :
    parseProcess (.mk "P" "d" (some ⟨[], some [pstep "A", fstep "F"]⟩) none) =
      ⟨"P", "d", (buildStepMap [pstep "A", fstep "F"]).filter
        (fun s => s.type ≠ StepType.finish), []⟩ :=
  C5_empty_edges_amended "P" "d" [pstep "A", fstep "F"] (by decide) (by decide)

end FlowClaims

section UCDBatchClaims

open UCD

/-- Claim C6, counterexample.  A batch holding one valid component template
and one malformed document returns null: JSON.parse throws inside the loop
and the surrounding try/catch aborts the whole batch, so a malformed document
is NOT merely skipped. -/
theorem C6_malformed_aborts_counterexample :
    isValidDoc compDoc = true ∧
    parseUCD [compDoc, JsonDoc.malformed "not json"] = none :=
  ⟨rfl, rfl⟩

/-- Claim C6, amended.  Only invalidly SHAPED (but parseable) documents are
skipped with a warning; a document that fails JSON parsing aborts the whole
batch (null), wherever it sits.  When every document parses, the call returns
a non-null ParsedData exactly when at least one document is a valid component
template with a truthy name and at least one of processes/genericProcesses. -/
theorem C6_batch_error_handling (docs : List JsonDoc) :
    (∀ (pre : List JsonDoc) (raw : String) (post : List JsonDoc),
        docs = pre ++ .malformed raw :: post → parseUCD docs = none) ∧
    ((∀ d ∈ docs, ∃ t, d = JsonDoc.parsed t) →
      ((parseUCD docs).isSome ↔ ∃ d ∈ docs, isValidDoc d = true)) := by
  constructor
  · rintro pre raw post rfl
    unfold parseUCD
    rw [collectDocs_malformed]
  · intro hall
    obtain ⟨names2, procs2, h1, h2⟩ := collectDocs_all_parsed docs hall [] []
    unfold parseUCD
    rw [h1]
    simp only [List.nil_append]
    by_cases hn : names2 = []
    · rw [if_pos hn]
      simp only [Option.isSome_none, Bool.false_eq_true, false_iff]
      rintro ⟨d, hd, hv⟩
      rw [h2.mp hn d hd] at hv
      cases hv
    · rw [if_neg hn]
      simp only [Option.isSome_some, true_iff]
      by_contra hex
      push_neg at hex
      apply hn
      apply h2.mpr
      intro d hd
      have := hex d hd
      simpa using this

/-- Claim C6 amended, witness: for the one-document batch [compDoc], which is
all-parseable, the non-null result coincides with the existence of a valid
document. -/
theorem C6_batch_error_handling_witness :
    (parseUCD [compDoc]).isSome ↔ ∃ d ∈ [compDoc], isValidDoc d = true :=
  (C6_batch_error_handling [compDoc]).2 (by
    intro d hd
    rw [List.mem_singleton.mp hd]
    exact ⟨_, rfl⟩)

end UCDBatchClaims

namespace Jenkins

theorem addFile_jenkinsfile (b : JenkinsBundle) (i : Nat) (c : String) :
    (addFile b i c).jenkinsfile =
      if fileTypeAt i c = "jenkinsfile" then some c else b.jenkinsfile := by
  simp only [addFile, fileTypeAt]
  split_ifs <;> simp_all

theorem addFile_configXml (b : JenkinsBundle) (i : Nat) (c : String) :
    (addFile b i c).configXml =
      if fileTypeAt i c = "config.xml" then some c else b.configXml := by
  simp only [addFile, fileTypeAt]
  split_ifs <;> simp_all

theorem addFile_groovy (b : JenkinsBundle) (i : Nat) (c : String) :
    (addFile b i c).groovyScripts =
      if fileTypeAt i c = "groovy" then
        assocSet b.groovyScripts (extractFileName c i) c
      else b.groovyScripts := by
  simp only [addFile, fileTypeAt]
  split_ifs <;> simp_all

theorem assocSet_ne_nil (m : List (String × String)) (k v : String) :
    assocSet m k v ≠ [] := by
  cases m with
  | nil => simp [assocSet]
  | cons kv rest =>
    obtain ⟨k0, v0⟩ := kv
    simp only [assocSet]
    split <;> simp

theorem exists_decomp_cons (P : Nat → String → Prop) {c0 : String} {rest : List String}
    {i : Nat} :
    (∃ pre c post, c0 :: rest = pre ++ c :: post ∧ P (i + pre.length) c) ↔
      P i c0 ∨ ∃ pre c post, rest = pre ++ c :: post ∧ P (i + 1 + pre.length) c := by
  constructor
  · rintro ⟨pre, c, post, he, hp⟩
    cases pre with
    | nil =>
      simp only [List.nil_append, List.cons.injEq] at he
      obtain ⟨rfl, rfl⟩ := he
      exact Or.inl (by simpa using hp)
    | cons p0 pre1 =>
      simp only [List.cons_append, List.cons.injEq] at he
      obtain ⟨he0, he⟩ := he
      refine Or.inr ⟨pre1, c, post, he, ?_⟩
      have heq : i + 1 + pre1.length = i + (pre1.length + 1) := by omega
      rw [heq]
      simpa [List.length_cons] using hp
  · rintro (hp | ⟨pre, c, post, he, hp⟩)
    · exact ⟨[], c0, rest, rfl, by simpa using hp⟩
    · refine ⟨c0 :: pre, c, post, by simp [he], ?_⟩
      simp only [List.length_cons]
      have heq : i + (pre.length + 1) = i + 1 + pre.length := by omega
      rw [heq]
      exact hp

theorem buildBundleGo_fields :
    ∀ (l : List String) (b : JenkinsBundle) (i : Nat),
      ((buildBundleGo b i l).jenkinsfile.isSome = true ↔
        b.jenkinsfile.isSome = true ∨
          ∃ pre c post, l = pre ++ c :: post ∧ fileTypeAt (i + pre.length) c = "jenkinsfile") ∧
      ((buildBundleGo b i l).configXml.isSome = true ↔
        b.configXml.isSome = true ∨
          ∃ pre c post, l = pre ++ c :: post ∧ fileTypeAt (i + pre.length) c = "config.xml") ∧
      ((buildBundleGo b i l).groovyScripts ≠ [] ↔
        b.groovyScripts ≠ [] ∨
          ∃ pre c post, l = pre ++ c :: post ∧ fileTypeAt (i + pre.length) c = "groovy") := by
  intro l
  induction l with
  | nil =>
    intro b i
    refine ⟨?_, ?_, ?_⟩ <;> simp [buildBundleGo]
  | cons c0 rest ih =>
    intro b i
    have hgo : buildBundleGo b i (c0 :: rest) = buildBundleGo (addFile b i c0) (i + 1) rest := rfl
    obtain ⟨ih1, ih2, ih3⟩ := ih (addFile b i c0) (i + 1)
    refine ⟨?_, ?_, ?_⟩
    · rw [hgo, ih1, addFile_jenkinsfile,
        exists_decomp_cons (fun n s => fileTypeAt n s = "jenkinsfile")]
      by_cases h : fileTypeAt i c0 = "jenkinsfile"
      · rw [if_pos h]
        constructor
        · intro _
          exact Or.inr (Or.inl h)
        · intro _
          exact Or.inl rfl
      · rw [if_neg h]
        constructor
        · rintro (hb | hx)
          · exact Or.inl hb
          · exact Or.inr (Or.inr hx)
        · rintro (hb | hp | hx)
          · exact Or.inl hb
          · exact absurd hp h
          · exact Or.inr hx
    · rw [hgo, ih2, addFile_configXml,
        exists_decomp_cons (fun n s => fileTypeAt n s = "config.xml")]
      by_cases h : fileTypeAt i c0 = "config.xml"
      · rw [if_pos h]
        constructor
        · intro _
          exact Or.inr (Or.inl h)
        · intro _
          exact Or.inl rfl
      · rw [if_neg h]
        constructor
        · rintro (hb | hx)
          · exact Or.inl hb
          · exact Or.inr (Or.inr hx)
        · rintro (hb | hp | hx)
          · exact Or.inl hb
          · exact absurd hp h
          · exact Or.inr hx
    · rw [hgo, ih3, addFile_groovy,
        exists_decomp_cons (fun n s => fileTypeAt n s = "groovy")]
      by_cases h : fileTypeAt i c0 = "groovy"
      · rw [if_pos h]
        constructor
        · intro _
          exact Or.inr (Or.inl h)
        · intro _
          exact Or.inl (assocSet_ne_nil _ _ _)
      · rw [if_neg h]
        constructor
        · rintro (hb | hx)
          · exact Or.inl hb
          · exact Or.inr (Or.inr hx)
        · rintro (hb | hp | hx)
          · exact Or.inl hb
          · exact absurd hp h
          · exact Or.inr hx

end Jenkins

section JenkinsClaims

open Jenkins

/-- Claim C7, counterexample.  A group whose only file is classified as the
recognized sub-type build.xml still gets null from parseJenkins: the guard
checks only jenkinsfile, config.xml and the groovy map, never buildXml. -/
theorem C7_buildxml_counterexample :
    fileTypeAt 0 buildOnlyContent = "build.xml" ∧
    parseJenkins [buildOnlyContent] = none :=
  ⟨by decide, rfl⟩

/-- Claim C7, amended.  parseJenkins returns null exactly when no file of the
group is classified as jenkinsfile, config.xml or groovy (a group whose only
recognized file is build.xml is also rejected); in particular the empty group
returns null, and one file of any of those three classifications makes the
result non-null. -/
theorem C7_null_only_without_core_files (contents : List String) :
    (contents = [] → parseJenkins contents = none) ∧
    (∀ pre c post, contents = pre ++ c :: post →
        (fileTypeAt pre.length c = "jenkinsfile" ∨ fileTypeAt pre.length c = "config.xml" ∨
          fileTypeAt pre.length c = "groovy") →
        (parseJenkins contents).isSome = true) ∧
    ((∀ pre c post, contents = pre ++ c :: post →
        fileTypeAt pre.length c ≠ "jenkinsfile" ∧ fileTypeAt pre.length c ≠ "config.xml" ∧
          fileTypeAt pre.length c ≠ "groovy") →
      parseJenkins contents = none) := by
  obtain ⟨h1, h2, h3⟩ := buildBundleGo_fields contents {} 0
  have hbase1 : (({} : JenkinsBundle).jenkinsfile.isSome = true) = False := by simp
  have hbase2 : (({} : JenkinsBundle).configXml.isSome = true) = False := by simp
  have hbase3 : (({} : JenkinsBundle).groovyScripts ≠ []) = False := by simp
  rw [hbase1, false_or] at h1
  rw [hbase2, false_or] at h2
  rw [hbase3, false_or] at h3
  simp only [zero_add] at h1 h2 h3
  refine ⟨?_, ?_, ?_⟩
  · rintro rfl
    rfl
  · intro pre c post heq hty
    unfold parseJenkins
    rw [if_neg]
    · rfl
    · rintro ⟨hjf, hcx, hgr⟩
      rcases hty with hty | hty | hty
      · have := h1.mpr ⟨pre, c, post, heq, hty⟩
        rw [Option.isNone_iff_eq_none.mp hjf] at this
        cases this
      · have := h2.mpr ⟨pre, c, post, heq, hty⟩
        rw [Option.isNone_iff_eq_none.mp hcx] at this
        cases this
      · exact (h3.mpr ⟨pre, c, post, heq, hty⟩) hgr
  · intro hno
    unfold parseJenkins
    rw [if_pos]
    refine ⟨?_, ?_, ?_⟩
    · rw [Option.isNone_iff_eq_none, ← Option.not_isSome_iff_eq_none]
      intro hs
      obtain ⟨pre, c, post, heq, hty⟩ := h1.mp hs
      exact (hno pre c post heq).1 hty
    · rw [Option.isNone_iff_eq_none, ← Option.not_isSome_iff_eq_none]
      intro hs
      obtain ⟨pre, c, post, heq, hty⟩ := h2.mp hs
      exact (hno pre c post heq).2.1 hty
    · by_contra hg
      obtain ⟨pre, c, post, heq, hty⟩ := h3.mp hg
      exact (hno pre c post heq).2.2 hty

/-- Claim C7 amended, witness: a batch holding one Jenkinsfile-classified file
yields a non-null result, applied at the concrete decomposition [] ++ f :: []. -/
theorem C7_null_only_without_core_files_witness :
    (parseJenkins ["// Jenkinsfile\npipeline \x7b \x7d"]).isSome = true :=
  (C7_null_only_without_core_files ["// Jenkinsfile\npipeline \x7b \x7d"]).2.1
    [] "// Jenkinsfile\npipeline \x7b \x7d" [] rfl (Or.inl (by decide))

end JenkinsClaims

section GHAClaims

/-- Claim C8, counterexample.  Parseable content that matches none of the
patterns (here a mapping with a single foo key) is tagged workflow, not
unknown: the final fallback of the detector returns the workflow tag, and the
unknown tag is produced only when yaml.load throws. -/
theorem C8_unknown_fallback_counterexample :
    GHA.detectFileType "f.yml" (.parsed (.obj [("foo", .str "1")])) = "workflow" ∧
    GHA.detectFileType "f.yml" (.parsed (.obj [("foo", .str "1")])) ≠ "unknown" :=
  ⟨rfl, by decide⟩

/-- Claim C8, amended.  The detector classifies without ever raising: content
whose parsed form has truthy on and jobs fields is tagged workflow, or
reusable-workflow when on.workflow_call is truthy; otherwise content with
runs.using equal to "composite" is tagged composite-action; all other
PARSEABLE content falls back to the workflow tag, and only content whose YAML
load throws yields the unknown tag. -/
theorem C8_detector_classification :
    (∀ fn raw, GHA.detectFileType fn (.malformed raw) = "unknown") ∧
    (∀ fn v, (jsTruthy v && jsTruthy (jsGet v "on") && jsTruthy (jsGet v "jobs")) = true →
        GHA.detectFileType fn (.parsed v) =
          if jsTruthy (jsGet (jsGet v "on") "workflow_call") then "reusable-workflow"
          else "workflow") ∧
    (∀ fn v, (jsTruthy v && jsTruthy (jsGet v "on") && jsTruthy (jsGet v "jobs")) = false →
        GHA.detectFileType fn (.parsed v) =
          if (jsTruthy v && jsTruthy (jsGet v "runs") &&
              GHA.jsUsingComposite (jsGet (jsGet v "runs") "using")) = true
          then "composite-action" else "workflow") ∧
    (∀ fn c, GHA.detectFileType fn c = "workflow" ∨
      GHA.detectFileType fn c = "reusable-workflow" ∨
      GHA.detectFileType fn c = "composite-action" ∨
      GHA.detectFileType fn c = "unknown") := by
  refine ⟨fun fn raw => rfl, ?_, ?_, ?_⟩
  · intro fn v h
    simp only [GHA.detectFileType]
    rw [if_pos h]
  · intro fn v h
    simp only [GHA.detectFileType]
    rw [if_neg (by simp [h])]
  · intro fn c
    cases c with
    | malformed raw => exact Or.inr (Or.inr (Or.inr rfl))
    | parsed v =>
      simp only [GHA.detectFileType]
      split_ifs
      · exact Or.inr (Or.inl rfl)
      · exact Or.inl rfl
      · exact Or.inr (Or.inr (Or.inl rfl))
      · exact Or.inl rfl

/-- Claim C8 amended, witness: the reusable-workflow rule applied to a
concrete document with on.workflow_call. -/
theorem C8_detector_classification_witness :
    GHA.detectFileType "wf.yml" (.parsed reusableDoc) =
      if jsTruthy (jsGet (jsGet reusableDoc "on") "workflow_call") then "reusable-workflow"
      else "workflow" :=
  C8_detector_classification.2.1 "wf.yml" reusableDoc rfl

end GHAClaims

theorem listStartsWith_nil : ∀ (l : List Char), listStartsWith l [] = true := by
  intro l
  cases l <;> rfl

theorem listStartsWith_append : ∀ (p r : List Char), listStartsWith (p ++ r) p = true := by
  intro p
  induction p with
  | nil => intro r; exact listStartsWith_nil _
  | cons c cs ih =>
    intro r
    simp [listStartsWith, ih r]

theorem listOccurs_of_startsWith {l p : List Char}
    (h : listStartsWith l p = true) : listOccurs l p = true := by
  cases l <;> simp [listOccurs, h]

theorem listOccurs_append_left : ∀ (a l p : List Char),
    listOccurs l p = true → listOccurs (a ++ l) p = true := by
  intro a
  induction a with
  | nil => intro l p h; simpa using h
  | cons c a1 ih =>
    intro l p h
    rw [List.cons_append]
    rw [listOccurs]
    split
    · rfl
    · exact ih l p h

theorem listStartsWith_append_right : ∀ (p l b : List Char),
    listStartsWith l p = true → listStartsWith (l ++ b) p = true := by
  intro p
  induction p with
  | nil => intro l b _; exact listStartsWith_nil _
  | cons c cs ih =>
    intro l b h
    cases l with
    | nil => simp [listStartsWith] at h
    | cons x xs =>
      simp only [listStartsWith, Bool.and_eq_true] at h
      simp only [List.cons_append, listStartsWith, Bool.and_eq_true]
      exact ⟨h.1, ih xs b h.2⟩

theorem listOccurs_append_right : ∀ (l b p : List Char),
    listOccurs l p = true → listOccurs (l ++ b) p = true := by
  intro l
  induction l with
  | nil =>
    intro b p h
    rw [listOccurs] at h
    split at h
    · rename_i hsw
      exact listOccurs_of_startsWith (listStartsWith_append_right p [] b hsw)
    · simp at h
  | cons c l1 ih =>
    intro b p h
    rw [listOccurs] at h
    split at h
    · rename_i hsw
      rw [List.cons_append]
      exact listOccurs_of_startsWith
        (by simpa using listStartsWith_append_right p (c :: l1) b hsw)
    · rw [List.cons_append, listOccurs]
      split
      · rfl
      · exact ih b p h

theorem strAppend_assoc : ∀ (x y z : String), (x ++ y) ++ z = x ++ (y ++ z) := by
  intro x y z
  cases x with
  | mk xa =>
    cases y with
    | mk ya =>
      cases z with
      | mk za => exact congrArg String.mk (List.append_assoc xa ya za)

theorem strOccurs_right (s t pat : String) (h : strOccurs t pat = true) :
    strOccurs (s ++ t) pat = true := by
  unfold strOccurs at *
  rw [String.data_append]
  exact listOccurs_append_left s.data t.data pat.data h

theorem strOccurs_left (s t pat : String) (h : strOccurs s pat = true) :
    strOccurs (s ++ t) pat = true := by
  unfold strOccurs at *
  rw [String.data_append]
  exact listOccurs_append_right s.data t.data pat.data h

theorem strOccurs_self (p : String) : strOccurs p p = true := by
  unfold strOccurs
  exact listOccurs_of_startsWith (by simpa using listStartsWith_append p.data [])

theorem strOccurs_embed (a p b : String) : strOccurs (a ++ (p ++ b)) p = true :=
  strOccurs_right a (p ++ b) p (strOccurs_left p b p (strOccurs_self p))

theorem concatMap_contains {α : Type} (f : α → String) (pat : String) :
    ∀ (l : List α) (x : α), x ∈ l → strOccurs (f x) pat = true →
      strOccurs (concatMap f l) pat = true := by
  intro l
  induction l with
  | nil => intro x hx; cases hx
  | cons y rest ih =>
    intro x hx h
    rcases List.mem_cons.mp hx with rfl | hx
    · exact strOccurs_left _ _ _ h
    · exact strOccurs_right _ _ _ (ih x hx h)

theorem scriptBody_segment_contains (s : String) (hne : s ≠ "") :
    strOccurs (scriptSegment "- Script Body:\n```\n" (some s))
      ("```\n" ++ s ++ "\n```") = true := by
  have hseg : scriptSegment "- Script Body:\n```\n" (some s) =
      "- Script Body:\n```\n" ++ s ++ "\n```\n" := by
    unfold scriptSegment jsStrOpt
    simp [hne]
  rw [hseg]
  have hre : "- Script Body:\n```\n" ++ s ++ "\n```\n" =
      "- Script Body:\n" ++ (("```\n" ++ s ++ "\n```") ++ "\n") := by
    have e1 : ("- Script Body:\n```\n" : String) = "- Script Body:\n" ++ "```\n" := by decide
    have e2 : ("\n```\n" : String) = "\n```" ++ "\n" := by decide
    rw [e1, e2]
    simp only [strAppend_assoc]
  rw [hre]
  exact strOccurs_embed _ _ _

theorem stringifyStep_contains_script (step : ParsedStep) (s : String)
    (hs : step.scriptBody = some s) (hne : s ≠ "") :
    strOccurs (stringifyStep step) ("```\n" ++ s ++ "\n```") = true := by
  unfold stringifyStep
  apply strOccurs_left
  apply strOccurs_right
  unfold stepScripts
  apply strOccurs_left
  apply strOccurs_right
  rw [hs]
  exact scriptBody_segment_contains s hne

theorem stringifyFlow_contains (flowName : String) (flow : List ParsedStep)
    (step : ParsedStep) (hmem : step ∈ flow) (pat : String)
    (h : strOccurs (stringifyStep step) pat = true) :
    strOccurs (stringifyFlow flowName flow) pat = true := by
  unfold stringifyFlow
  rw [if_pos (by cases flow with | nil => cases hmem | cons a l => simp)]
  apply strOccurs_right
  exact concatMap_contains stringifyStep pat flow step hmem h

section StringifyClaims

/-- Claim C9, counterexample.  A ParsedData with a step whose scriptBody is
SET (to the empty string) renders with no fenced block at all: the renderer
gates the block on JavaScript truthiness, and the empty string is falsy, so
the rendering contains neither the empty block nor even one backtick fence. -/
theorem C9_empty_script_counterexample :
    emptyScriptStep.scriptBody = some "" ∧
    emptyScriptData.processes.map (fun p => p.mainFlow.map (·.scriptBody)) = [[some ""]] ∧
    strOccurs (stringifyParsedDataForPrompt emptyScriptData) ("```\n" ++ "" ++ "\n```") = false ∧
    strOccurs (stringifyParsedDataForPrompt emptyScriptData) "```" = false :=
  ⟨rfl, rfl, by decide, by decide⟩

/-- Claim C9, amended.  For every ParsedData containing at least one step (in
either flow of one of its processes) whose scriptBody is set to a NONEMPTY
string, the plain-text rendering contains that script text verbatim,
whitespace preserved, between a fence that opens with three backticks and a
newline and closes with a newline and three backticks. -/
theorem C9_script_verbatim (d : ParsedData) (p : ParsedProcess) (step : ParsedStep)
    (hp : p ∈ d.processes) (hstep : step ∈ p.mainFlow ∨ step ∈ p.failureFlow)
    (s : String) (hs : step.scriptBody = some s) (hne : s ≠ "") :
    strOccurs (stringifyParsedDataForPrompt d) ("```\n" ++ s ++ "\n```") = true := by
  unfold stringifyParsedDataForPrompt
  apply strOccurs_right
  apply concatMap_contains stringifyProcess _ d.processes p hp
  unfold stringifyProcess
  rcases hstep with hm | hf
  · apply strOccurs_left
    apply strOccurs_right
    exact stringifyFlow_contains _ _ _ hm _ (stringifyStep_contains_script step s hs hne)
  · apply strOccurs_right
    exact stringifyFlow_contains _ _ _ hf _ (stringifyStep_contains_script step s hs hne)

/-- Claim C9 amended, witness: the rendering of echoData contains the block
with the exact script text. -/
theorem C9_script_verbatim_witness :
    strOccurs (stringifyParsedDataForPrompt echoData) ("```\n" ++ "echo hi" ++ "\n```") = true :=
  C9_script_verbatim echoData echoProcess echoStep (List.mem_singleton.mpr rfl)
    (Or.inl (List.mem_singleton.mpr rfl)) "echo hi" rfl (by decide)

end StringifyClaims

namespace Yaml

theorem parseYAMLGo_length : ∀ (l : List YamlFile) (i : Nat),
    (parseYAMLGo i l).length = l.length := by
  intro l
  induction l with
  | nil => intro i; rfl
  | cons f rest ih => intro i; simp [parseYAMLGo, ih]

theorem parseYAMLGo_get : ∀ (pre : List YamlFile) (f : YamlFile) (post : List YamlFile)
    (i : Nat), (parseYAMLGo i (pre ++ f :: post))[pre.length]? =
      some (yamlProcessOf (i + pre.length) f) := by
  intro pre
  induction pre with
  | nil =>
    intro f post i
    simp [parseYAMLGo]
  | cons g pre1 ih =>
    intro f post i
    rw [List.cons_append]
    simp only [parseYAMLGo, List.length_cons]
    rw [List.getElem?_cons_succ]
    rw [ih f post (i + 1)]
    have : i + 1 + pre1.length = i + (pre1.length + 1) := by omega
    rw [this]

end Yaml

section YamlClaims

/-- Claim C10 (confirmed).  parseYAML is total (it returns a ParsedData, never
null) with exactly one process per input string, and an input whose YAML load
throws still yields a process whose single step carries the raw content and
the parse-error message in its properties. -/
theorem C10_parseYAML_total (contents : List Yaml.YamlFile) :
    (Yaml.parseYAML contents).processes.length = contents.length ∧
    (∀ pre f post msg, contents = pre ++ f :: post → f.load = .err msg →
      ∃ p, (Yaml.parseYAML contents).processes[pre.length]? = some p ∧
        p.mainFlow.length = 1 ∧
        ∀ st ∈ p.mainFlow, ("rawYaml", JsValue.str f.raw) ∈ st.properties ∧
          ("parseError", JsValue.str msg) ∈ st.properties) := by
  constructor
  · exact Yaml.parseYAMLGo_length contents 0
  · rintro pre f post msg rfl herr
    refine ⟨Yaml.yamlProcessOf pre.length f, ?_, ?_, ?_⟩
    · have := Yaml.parseYAMLGo_get pre f post 0
      simpa using this
    · simp [Yaml.yamlProcessOf, herr, Yaml.yamlErrorProcess]
    · intro st hst
      simp only [Yaml.yamlProcessOf, herr, Yaml.yamlErrorProcess,
        List.mem_singleton] at hst
      subst hst
      constructor <;> simp [Yaml.yamlErrorStep]

/-- Claim C10, witness: the singleton batch with a failing file yields a
process whose single step carries the raw text and the error message. -/
theorem C10_parseYAML_total_witness :
    ∃ p, (Yaml.parseYAML [badYamlFile]).processes[(0 : Nat)]? = some p ∧
      p.mainFlow.length = 1 ∧
      ∀ st ∈ p.mainFlow, ("rawYaml", JsValue.str badYamlFile.raw) ∈ st.properties ∧
        ("parseError", JsValue.str "unexpected end") ∈ st.properties :=
  (C10_parseYAML_total [badYamlFile]).2 [] badYamlFile [] "unexpected end" rfl rfl

end YamlClaims
